import Mathlib

/-!
# redis_client: the RESP reply parser and the reply dispatcher

A shallow embedding of `src/redis_client.hpp` (the classes `redis::value`,
`redis::parser` and `redis::client`), followed by theorems about it.

Conventions of the embedding.
* A byte (`char`) is a natural number below 256 and a `std::string` is a list of
  bytes.  Every test that the source makes on a byte is a comparison, so the
  definitions are total on `Nat`.
* `int64_t` and `long int` are `Int`, with an explicit wrap to 64 bits
  (`wrap64`) in the arithmetic of `to_long`; `size_t` is `Nat`, with an explicit
  conversion from `long int` (`to_size_t`).
* The range `[cur, end)` of `parser::chunk` is the list of the bytes that are
  still unread; `std::distance( beg, cur )` is the length of the input minus
  the length of that list.
* A handler (`std::function< void( redis::value ) >`) is named by a number; a
  call of a handler or of the write callback is recorded in the trace of the
  client.  The mutexes are not represented (one thread).
* `std::string::reserve` and `std::vector::reserve` change the capacity only,
  but throw `std::length_error` for a count above `max_size()`: a call of
  `parser::chunk` that is left by this exception returns no pair and has the
  outcome `result_t.length_error`.  Memory is assumed to be available, so
  `std::bad_alloc` is not represented.
-/

namespace redis

/-- The intro bytes of the five kinds of frame, and the line end. -/
abbrev string_match : Nat := 43
abbrev error_match : Nat := 45
abbrev integer_match : Nat := 58
abbrev bulk_match : Nat := 36
abbrev array_match : Nat := 42
abbrev CRCF : List Nat := [13, 10]

/-- The class `redis::value`: the field `_error_code` and the four alternatives
of the variant `_value` ( `std::monostate`, `int64_t`, `std::string`,
`std::vector<value>` ). -/
inductive value where
  | null (error_code : Int)
  | int (error_code : Int) (i : Int)
  | string (error_code : Int) (s : List Nat)
  | array (error_code : Int) (a : List value)

namespace value

instance : Inhabited value := ⟨value.null 0⟩

/-- The accessor `value::error_code`. -/
def error_code : value → Int
  | null e => e
  | int e _ => e
  | string e _ => e
  | array e _ => e

def is_ok (v : value) : Bool := v.error_code == 0

def is_null : value → Bool
  | null _ => true
  | _ => false

def is_int : value → Bool
  | int _ _ => true
  | _ => false

def is_string : value → Bool
  | string _ _ => true
  | _ => false

def is_array : value → Bool
  | array _ _ => true
  | _ => false

/-- The accessor `value::get_string`: `std::get` throws on another alternative. -/
def get_string : value → Option (List Nat)
  | string _ s => some s
  | _ => none

/-- The accessor `value::get_array`: `std::get` throws on another alternative. -/
def get_array : value → Option (List value)
  | array _ a => some a
  | _ => none

def to_int : value → Int
  | int _ i => i
  | _ => 0

def to_string : value → List Nat
  | string _ s => s
  | _ => []

def to_array : value → List value
  | array _ a => a
  | _ => []

mutual
/-- The comparison `value::operator==`: it compares the variants only, element
by element for vectors, and never looks at `_error_code`. -/
def eq : value → value → Bool
  | null _, null _ => true
  | int _ i, int _ j => decide (i = j)
  | string _ s, string _ t => decide (s = t)
  | array _ a, array _ b => eqList a b
  | _, _ => false
/-- The comparison of two `std::vector<value>` by `value::operator==`. -/
def eqList : List value → List value → Bool
  | [], [] => true
  | x :: xs, y :: ys => eq x y && eqList xs ys
  | _, _ => false
end

end value

/-- The enumeration `parser::state_t`. -/
inductive state_t where
  | Start | StartArray
  | String | StringLF
  | ErrorString | ErrorLF
  | Integer | IntegerLF
  | BulkSize | BulkSizeLF | Bulk | BulkCR | BulkLF
  | ArraySize | ArraySizeLF
  deriving DecidableEq, Repr

/-- How a call of `parser::chunk` ends: with one of the three values of the
enumeration `parser::result_t` in the pair that it returns, or, `length_error`,
without a pair, by the exception `std::length_error` thrown in `reserve`
(`length_error` is not a value of the enumeration). -/
inductive result_t where
  | Completed | Incompleted | Error
  | length_error
  deriving DecidableEq, Repr

/-- The value of `std::string::max_size()`, the largest count that
`std::string::reserve` accepts.  The standard leaves it to the library; this is
the value of libstdc++ (GCC 12) on a 64-bit platform, `( PTRDIFF_MAX - 1 ) / 2`. -/
def string_max_size : Nat := 2 ^ 62 - 1

/-- The value of `std::vector<redis::value>::max_size()`, the largest count that
`std::vector::reserve` accepts.  The standard leaves it to the library; this is
the value of libstdc++ (GCC 12) on a 64-bit platform,
`PTRDIFF_MAX / sizeof( value )` with `sizeof( redis::value ) = 48`. -/
def vector_max_size : Nat := (2 ^ 63 - 1) / 48

/-- Two's complement wrap of an integer to the range of `int64_t`. -/
def wrap64 (x : Int) : Int := Int.bmod x (2 ^ 64)

/-- Conversion of a `long int` to `size_t`. -/
def to_size_t (x : Int) : Nat := (x % 2 ^ 64).toNat

/-- Promotion of a (signed) `char` to `int`. -/
def char_to_int (c : Nat) : Int := if c < 128 then (c : Int) else (c : Int) - 256

/-- The helper `parser::is_char`. -/
def is_char (c : Int) : Bool := decide (0 ≤ c) && decide (c ≤ 127)

/-- The helper `parser::is_control`. -/
def is_control (c : Int) : Bool := (decide (0 ≤ c) && decide (c ≤ 31)) || decide (c = 127)

/-- The C library `isdigit` on a `char`. -/
def isdigit (c : Nat) : Bool := decide (48 ≤ c) && decide (c ≤ 57)

/-- The `for` loop of `parser::to_long`; the two assignments to the `long int`
wrap to 64 bits (two's complement). -/
def to_long_loop : List Nat → Int → Int
  | [], value => value
  | c :: str, value => to_long_loop str (wrap64 (wrap64 (value * 10) + (char_to_int c - 48)))

/-- The helper `parser::to_long`. -/
def to_long (str : List Nat) : Int :=
  match str with
  | [] => 0
  | c :: rest =>
    if c = 45 then
      (if rest = [] then 0 else wrap64 (- to_long_loop rest 0))
    else to_long_loop (c :: rest) 0

/-- The data members of the class `redis::parser`; the head of a list is the
top of the stack. -/
structure parser where
  _buf : List Nat := []
  _bulk_size : Nat := 0
  _value : value := value.null 0
  _states : List state_t := []
  _array_sizes : List Int := []
  _array_values : List value := []

/-- The accessor `parser::result`. -/
def parser.result (p : parser) : value := p._value

/-- How one pass through the `switch` of `parser::chunk` ends: with
`return make_pair( distance( beg, cur ), Error )`, at the `break` of the case,
with the new `state`, or with the exception `std::length_error` thrown in
`reserve`.  In all three, `rest` is the range `[cur, end)` and `p` the parser at
that point. -/
inductive step_t where
  | ret (rest : List Nat) (p : parser)
  | go (state : state_t) (rest : List Nat) (p : parser)
  | throw (rest : List Nat) (p : parser)

/-- The statement `std::stack<state_t>().swap( _states )`. -/
def clear_states (p : parser) : parser := { p with _states := [] }

/-- The error exit of a case of the `switch`. -/
def fail (rest : List Nat) (p : parser) : step_t := step_t.ret rest (clear_states p)

/-- The `switch ( state )` of `parser::chunk` for the byte `c = *cur++`;
`rest` is `[cur, end)` after the increment. -/
def chunk_switch (state : state_t) (c : Nat) (rest : List Nat) (p : parser) : step_t :=
  match state with
  | .StartArray | .Start =>
    let p := { p with _buf := [] }
    if c = string_match then .go .String rest p
    else if c = error_match then .go .ErrorString rest p
    else if c = integer_match then .go .Integer rest p
    else if c = bulk_match then .go .BulkSize rest { p with _bulk_size := 0 }
    else if c = array_match then .go .ArraySize rest p
    else .ret rest p
  | .String =>
    if c = 13 then .go .StringLF rest p
    else if is_char (char_to_int c) && !is_control (char_to_int c) then
      .go .String rest { p with _buf := p._buf ++ [c] }
    else fail rest p
  | .ErrorString =>
    if c = 13 then .go .ErrorLF rest p
    else if is_char (char_to_int c) && !is_control (char_to_int c) then
      .go .ErrorString rest { p with _buf := p._buf ++ [c] }
    else fail rest p
  | .BulkSize =>
    if c = 13 then
      if p._buf = [] then fail rest p else .go .BulkSizeLF rest p
    else if isdigit c || c = 45 then .go .BulkSize rest { p with _buf := p._buf ++ [c] }
    else fail rest p
  | .StringLF =>
    if c = 10 then .go .Start rest { p with _value := value.string 0 p._buf }
    else fail rest p
  | .ErrorLF =>
    if c = 10 then .go .Start rest { p with _value := value.string 0 p._buf }
    else fail rest p
  | .BulkSizeLF =>
    if c = 10 then
      let p := { p with _bulk_size := to_size_t (to_long p._buf), _buf := [] }
      if p._bulk_size = to_size_t (-1) then .go .Start rest { p with _value := value.null 0 }
      else if p._bulk_size = 0 then .go .BulkCR rest p
      else if p._bulk_size < 0 then fail rest p
      else if string_max_size < p._bulk_size then .throw rest p
      else
        let available := rest.length
        let canRead := min p._bulk_size available
        let p := if canRead > 0 then
            { p with _buf := rest.take canRead, _bulk_size := p._bulk_size - canRead }
          else p
        let rest := if canRead > 0 then rest.drop canRead else rest
        if p._bulk_size > 0 then .go .Bulk rest p else .go .BulkCR rest p
    else fail rest p
  | .Bulk =>
    let available := rest.length + 1
    let canRead := min available p._bulk_size
    let p := { p with _buf := p._buf ++ (c :: rest).take canRead,
                      _bulk_size := p._bulk_size - canRead }
    let rest := (c :: rest).drop canRead
    if p._bulk_size = 0 then .go .BulkCR rest p else .go .Bulk rest p
  | .BulkCR =>
    if c = 13 then .go .BulkLF rest p else fail rest p
  | .BulkLF =>
    if c = 10 then .go .Start rest { p with _value := value.string 0 p._buf }
    else fail rest p
  | .ArraySize =>
    if c = 13 then
      if p._buf = [] then fail rest p else .go .ArraySizeLF rest p
    else if isdigit c || c = 45 then .go .ArraySize rest { p with _buf := p._buf ++ [c] }
    else fail rest p
  | .ArraySizeLF =>
    if c = 10 then
      let arraySize := to_long p._buf
      if arraySize = -1 then .go .Start rest { p with _value := value.null 0 }
      else if arraySize = 0 then .go .Start rest { p with _value := value.array 0 [] }
      else if arraySize < 0 then fail rest p
      else if vector_max_size < to_size_t arraySize then .throw rest p
      else .go .StartArray rest
        { p with _array_sizes := arraySize :: p._array_sizes,
                 _array_values := value.array 0 [] :: p._array_values }
    else fail rest p
  | .Integer =>
    if c = 13 then
      if p._buf = [] then fail rest p else .go .IntegerLF rest p
    else if isdigit c || c = 45 then .go .Integer rest { p with _buf := p._buf ++ [c] }
    else fail rest p
  | .IntegerLF =>
    if c = 10 then .go .Start rest { p with _buf := [], _value := value.int 0 (to_long p._buf) }
    else fail rest p

/-- The statement `_array_values.top().get_array().push_back( v )`.  On an empty
stack, or a top that does not hold a vector, the C++ statement has no defined
result; the stack is left as it is (`chunk` never reaches such a state from a
new parser). -/
def push_back_top (vals : List value) (v : value) : List value :=
  match vals with
  | value.array e a :: below => value.array e (a ++ [v]) :: below
  | other => other

/-- The loop `while ( !_array_sizes.empty() && --_array_sizes.top() == 0 )` of
`parser::chunk` on the members `_array_sizes`, `_array_values`, `_value`. -/
def pop_loop : List Int → List value → value → List Int × List value × value
  | [], vals, v => ([], vals, v)
  | n :: sizes, vals, v =>
    if n - 1 = 0 then
      let v1 := vals.headD v
      let vals1 := vals.tail
      if sizes ≠ [] then pop_loop sizes (push_back_top vals1 v1) v1
      else pop_loop sizes vals1 v1
    else ((n - 1) :: sizes, vals, v)

/-- The block `if ( !_array_sizes.empty() ) { ... }` that `parser::chunk` runs
when a value has just been completed ( `state == Start` ). -/
def array_complete (p : parser) : parser :=
  if p._array_sizes ≠ [] then
    let r := pop_loop p._array_sizes (push_back_top p._array_values p._value) p._value
    { p with _array_sizes := r.1, _array_values := r.2.1, _value := r.2.2 }
  else p

/-- The statements after the `while` loop of `parser::chunk`. -/
def chunk_exit (state : state_t) (rest : List Nat) (p : parser) :
    List Nat × result_t × parser :=
  if p._array_sizes = [] ∧ state = .Start then (rest, .Completed, p)
  else (rest, .Incompleted, { p with _states := state :: p._states })

/-- The loop `while ( cur != end )` of `parser::chunk`.  The first argument
bounds the number of iterations; `chunk` passes a bound that is never reached
(`chunk_loop_fuel`). -/
def chunk_loop : Nat → state_t → List Nat → parser → List Nat × result_t × parser
  | 0, state, rest, p => chunk_exit state rest p
  | _ + 1, state, [], p => chunk_exit state [] p
  | fuel + 1, state, c :: rest, p =>
    match chunk_switch state c rest p with
    | .ret rest1 p1 => (rest1, .Error, p1)
    | .throw rest1 p1 => (rest1, .length_error, p1)
    | .go state1 rest1 p1 =>
      if state1 = .Start then
        let p2 := array_complete p1
        if p2._array_sizes = [] then chunk_exit state1 rest1 p2
        else chunk_loop fuel state1 rest1 p2
      else chunk_loop fuel state1 rest1 p1

/-- The start of `parser::chunk`: the state to resume in and the parser with
that state popped. -/
def chunk_entry (p : parser) : state_t × parser :=
  match p._states with
  | [] => (.Start, p)
  | s :: below => (s, { p with _states := below })

/-- The function `parser::chunk` on the range `input`; the result is the pair
that the C++ function returns and the parser after the call.  With the outcome
`length_error` no pair is returned: the number is `std::distance( beg, cur )`
where the exception is thrown. -/
def chunk (p : parser) (input : List Nat) : (Nat × result_t) × parser :=
  let e := chunk_entry p
  let r := chunk_loop (2 * input.length + 1) e.1 input e.2
  ((input.length - r.1.length, r.2.1), r.2.2)

/-- The function `parser::parse`. -/
def parse (p : parser) (input : List Nat) : (Nat × result_t) × parser := chunk p input

/-- A bytes literal: the bytes of an ASCII string. -/
def bytes (s : String) : List Nat := s.toList.map Char.toNat


/-- The measure that decreases along the iterations of the loop of `chunk`. -/
def loop_measure (state : state_t) (rest : List Nat) : Nat :=
  2 * rest.length + (if state = .Bulk then 1 else 0)

/-- The loop of `chunk` from `state` on the unread bytes `rest`, with the
iteration bound that `chunk` uses. -/
def run (state : state_t) (rest : List Nat) (p : parser) : List Nat × result_t × parser :=
  chunk_loop (2 * rest.length + 1) state rest p

/-- A call of `chunk` on `b` after a call that ended as `x` (unread bytes,
result, parser), seen as one run: when the first call was `Incompleted` the
second call resumes, otherwise the first result stands and `b` is unread. -/
def run_then (x : List Nat × result_t × parser) (b : List Nat) :
    List Nat × result_t × parser :=
  if x.2.1 = .Incompleted then run (chunk_entry x.2.2).1 b (chunk_entry x.2.2).2
  else (x.1 ++ b, x.2.1, x.2.2)

/-- Successive calls of `parser::parse` on one parser, one call per fragment:
the pairs returned by the calls and the parser after the last call. -/
def parse_all : parser → List (List Nat) → List (Nat × result_t) × parser
  | p, [] => ([], p)
  | p, f :: fs => ((parse p f).1 :: (parse_all (parse p f).2 fs).1, (parse_all (parse p f).2 fs).2)

/-- The loop that writes the decimal digits of `n` in front of `acc`, most
significant digit first; the first argument bounds the number of digits. -/
def decimal_loop : Nat → Nat → List Nat → List Nat
  | 0, _, acc => acc
  | fuel + 1, n, acc =>
    if n < 10 then (48 + n) :: acc else decimal_loop fuel (n / 10) ((48 + n % 10) :: acc)

/-- The decimal notation of a natural number: `std::to_string` on a `size_t`,
and `decimal` of the reference RESP encoding. -/
def decimal (n : Nat) : List Nat := decimal_loop (n + 1) n []

/-- The decimal notation of an integer, with a leading `-` when it is negative. -/
def decimal_int (i : Int) : List Nat :=
  if i < 0 then 45 :: decimal i.natAbs else decimal i.natAbs

mutual
/-- The reference RESP encoding of a value: nil as `$-1`, an integer as a `:`
frame, a string as a bulk, an array as `*n` followed by its elements. -/
def enc : value → List Nat
  | .null _ => [36, 45, 49, 13, 10]
  | .int _ n => 58 :: (decimal_int n ++ [13, 10])
  | .string _ s => 36 :: (decimal s.length ++ ([13, 10] ++ (s ++ [13, 10])))
  | .array _ a => 42 :: (decimal a.length ++ ([13, 10] ++ enc_list a))
/-- The encodings of the elements of an array, one after the other. -/
def enc_list : List value → List Nat
  | [] => []
  | v :: vs => enc v ++ enc_list vs
end

mutual
/-- The values of the reference encoding that a C++ program can hold: built
from nil, 64-bit signed integers, strings and arrays (to any depth) by the
one-argument constructors of `redis::value` (error code 0), with the length of
every string and of every array at most the `max_size()` of its container. -/
def encodable : value → Bool
  | .null e => decide (e = 0)
  | .int e n => decide (e = 0) && decide (-(2 : Int) ^ 63 ≤ n) && decide (n < (2 : Int) ^ 63)
  | .string e s => decide (e = 0) && decide (s.length ≤ string_max_size)
  | .array e a => decide (e = 0) && decide (a.length ≤ vector_max_size) && encodable_list a
/-- Every element of the list is `encodable`. -/
def encodable_list : List value → Bool
  | [] => true
  | v :: vs => encodable v && encodable_list vs
end

/-- The end of an iteration of the loop of `chunk` in which a value has just
been completed ( `state == Start` ), with `rest` unread: the value is added to
the array under construction, if any, and the loop is left or goes on. -/
def after_value (rest : List Nat) (p : parser) : List Nat × result_t × parser :=
  if (array_complete p)._array_sizes = [] then chunk_exit .Start rest (array_complete p)
  else run .Start rest (array_complete p)

/-- What a run of the client can do that the embedding does not give a result
to: `operator[]` past the end of a vector and `front()` on an empty deque
(undefined behaviour), `std::get` on another alternative of the variant (the
exception `std::bad_variant_access`), and a call of `parse` that is left by the
exception `std::length_error`, which `client::input` does not catch. -/
inductive fault where
  | index_out_of_range
  | bad_variant_access
  | empty_queue
  | length_error
  deriving DecidableEq, Repr

/-- What the client does to the outside, in order: a call of a handler
( `result_callback_t`, named by a number) with its argument, and a call of the
write callback `_output` with the bytes of the command, together with the
members `_handler` and `_subscribe_handler` as they are at that call. -/
inductive event where
  | call (handler : Nat) (val : value)
  | output (data : List Nat) (pending : List Nat) (subscriptions : List (List Nat × Nat))

/-- The member function `find` of `std::map<std::string, result_callback_t>`. -/
def map_find : List (List Nat × Nat) → List Nat → Option Nat
  | [], _ => none
  | (k, h) :: m, key => if k = key then some h else map_find m key

/-- The member function `insert` of `std::map`: nothing is inserted when the key
is present. -/
def map_insert (m : List (List Nat × Nat)) (key : List Nat) (h : Nat) : List (List Nat × Nat) :=
  match map_find m key with
  | some _ => m
  | none => m ++ [(key, h)]

/-- The data members of the class `redis::client` (the mutexes apart):
`parser_` is the member `_parser`, `_output` tells whether the write callback is
non-null, and `trace` lists the calls of handlers and of the write callback made
so far. -/
structure client where
  parser_ : parser := {}
  _output : Bool := true
  _handler : List Nat := []
  _subscribe_handler : List (List Nat × Nat) := []
  trace : List event := []

/-- The end of `client::consume_message`: the front handler is moved out of
`_handler` and called with `val`. -/
def deliver (cl : client) (val : value) : Except fault client :=
  match cl._handler with
  | [] => .error .empty_queue
  | handler :: below =>
    .ok { cl with _handler := below, trace := cl.trace ++ [event.call handler val] }

/-- The function `client::consume_message`. -/
def consume_message (cl : client) (val : value) : Except fault client :=
  match val with
  | .array _ a =>
    match a[0]? with
    | none => .error .index_out_of_range
    | some first =>
      match first.get_string with
      | none => .error .bad_variant_access
      | some cmd =>
        if cmd = bytes "message" then
          match a[1]? with
          | none => .error .index_out_of_range
          | some second =>
            match second.get_string with
            | none => .error .bad_variant_access
            | some key =>
              match map_find cl._subscribe_handler key with
              | some it =>
                match a[2]? with
                | none => .error .index_out_of_range
                | some third => .ok { cl with trace := cl.trace ++ [event.call it third] }
              | none => .ok cl
        else if cmd = bytes "subscribe" then .ok cl
        else deliver cl val
  | _ => deliver cl val

/-- The loop `while ( cur != end )` of `client::input` on the unread bytes; the
result is the range that is left when the function returns.  The first argument
bounds the number of iterations; `client.input` passes the length of the input,
and every iteration that goes on consumes a byte. -/
def input_loop : Nat → client → List Nat → Except fault (List Nat × client)
  | 0, cl, rest => .ok (rest, cl)
  | _ + 1, cl, [] => .ok ([], cl)
  | fuel + 1, cl, c :: rest =>
    let result := parse cl.parser_ (c :: rest)
    let cl1 := { cl with parser_ := result.2 }
    match result.1.2 with
    | .Completed =>
      match consume_message cl1 cl1.parser_.result with
      | .error f => .error f
      | .ok cl2 => input_loop fuel cl2 ((c :: rest).drop result.1.1)
    | .Incompleted => .ok ((c :: rest).drop result.1.1, cl1)
    | .length_error => .error .length_error
    | .Error =>
      match consume_message cl1 (value.string 0 (bytes "redis parse error")) with
      | .error f => .error f
      | .ok cl2 => .ok ([], cl2)

/-- The function `client::input`: the number of bytes up to the iterator that
is returned, and the client after the call. -/
def client.input (cl : client) (data : List Nat) : Except fault (Nat × client) :=
  match input_loop data.length cl data with
  | .error f => .error f
  | .ok r => .ok (data.length - r.1.length, r.2)

/-- Successive calls of `client::input`, one per buffer: the counts returned
and the client after the last call. -/
def input_all : client → List (List Nat) → Except fault (List Nat × client)
  | cl, [] => .ok ([], cl)
  | cl, d :: ds =>
    match cl.input d with
    | .error f => .error f
    | .ok r =>
      match input_all r.2 ds with
      | .error f => .error f
      | .ok rs => .ok (r.1 :: rs.1, rs.2)

/-- The string `cmd` that `client::command` builds from `args`. -/
def command_bytes (args : List (List Nat)) : List Nat :=
  args.foldl (fun cmd item => cmd ++ [36] ++ decimal item.length ++ CRCF ++ item ++ CRCF)
    ([42] ++ decimal args.length ++ CRCF)

/-- The function `client::command`; an empty `subscribe_key` is the default
argument. -/
def client.command (cl : client) (args : List (List Nat)) (callback : Nat)
    (subscribe_key : List Nat) : client :=
  let cmd := command_bytes args
  if cl._output = true then
    let cl1 :=
      if subscribe_key = [] then { cl with _handler := cl._handler ++ [callback] }
      else { cl with _subscribe_handler :=
                       map_insert cl._subscribe_handler subscribe_key callback }
    { cl1 with trace := cl1.trace ++ [event.output cmd cl1._handler cl1._subscribe_handler] }
  else cl

/-- The function `client::subscribe`. -/
def client.subscribe (cl : client) (key : List Nat) (callback : Nat) : client :=
  cl.command [bytes "SUBSCRIBE", key] callback key

/-- The function `client::unsubscribe`. -/
def client.unsubscribe (cl : client) (key : List Nat) (callback : Nat) : client :=
  cl.command [bytes "UNSUBSCRIBE", key] callback []

/-- A reply of the server that is not an array, on the wire. -/
inductive reply where
  | status (text : List Nat)
  | error (text : List Nat)
  | integer (i : Int)
  | bulk (s : List Nat)
  | nil

/-- The RESP frame of a reply. -/
def reply.wire : reply → List Nat
  | .status t => 43 :: (t ++ [13, 10])
  | .error t => 45 :: (t ++ [13, 10])
  | .integer i => 58 :: (decimal_int i ++ [13, 10])
  | .bulk s => 36 :: (decimal s.length ++ ([13, 10] ++ (s ++ [13, 10])))
  | .nil => [36, 45, 49, 13, 10]

/-- The replies that a server can send: the text of a status or error line is
printable ASCII, an integer fits 64 bits, a bulk is a `std::string` (its length
is at most `max_size()`). -/
def reply.valid : reply → Bool
  | .status t => t.all fun c => decide (32 ≤ c) && decide (c ≤ 126)
  | .error t => t.all fun c => decide (32 ≤ c) && decide (c ≤ 126)
  | .integer i => decide (-(2 : Int) ^ 63 ≤ i) && decide (i < (2 : Int) ^ 63)
  | .bulk s => decide (s.length ≤ string_max_size)
  | .nil => true

/-- The payload of a reply as a `redis::value`: the text of a status or error
line and the bytes of a bulk as a string, an integer, nil. -/
def reply.value : reply → value
  | .status t => value.string 0 t
  | .error t => value.string 0 t
  | .integer i => value.int 0 i
  | .bulk s => value.string 0 s
  | .nil => value.null 0

/-- The calls of handlers in a trace, in order: the handler and its argument. -/
def calls : List event → List (Nat × value)
  | [] => []
  | event.call h v :: es => (h, v) :: calls es
  | event.output _ _ _ :: es => calls es

/-- A new client with a write callback after one call of `command` without
subscribe key for every pair of an argument list and a handler. -/
def send_all (cmds : List (List (List Nat) × Nat)) : client :=
  cmds.foldl (fun cl c => cl.command c.1 c.2 []) {}

/-- The natural number that a run of decimal digits denotes. -/
def digits_value (ds : List Nat) : Nat := ds.foldl (fun v c => v * 10 + (c - 48)) 0

/-- The invariant of the parser between two calls of `chunk`: at most one state
to resume in, one partial array per counter, every counter at least 1, and every
partial array a vector. -/
def parser.wf (p : parser) : Prop :=
  p._states.length ≤ 1 ∧
  p._array_sizes.length = p._array_values.length ∧
  (∀ n ∈ p._array_sizes, 1 ≤ n) ∧
  (∀ v ∈ p._array_values, v.is_array = true)

/-- The part of `parser.wf` about the two stacks of partial arrays. -/
def parser.arrays_ok (p : parser) : Prop :=
  p._array_sizes.length = p._array_values.length ∧
  (∀ n ∈ p._array_sizes, 1 ≤ n) ∧
  (∀ v ∈ p._array_values, v.is_array = true)

/-! ## Theorems -/


theorem loop_measure_le (state : state_t) (rest : List Nat) :
    loop_measure state rest ≤ 2 * rest.length + 1 := by
  unfold loop_measure
  split_ifs <;> omega

theorem chunk_switch_measure {state : state_t} {c : Nat} {rest : List Nat} {p : parser}
    {state1 : state_t} {rest1 : List Nat} {p1 : parser}
    (h : chunk_switch state c rest p = .go state1 rest1 p1) :
    loop_measure state1 rest1 < loop_measure state (c :: rest) := by
  unfold loop_measure
  cases state <;> simp only [chunk_switch, fail] at h
  all_goals (try split_ifs at h)
  all_goals (try (simp only [step_t.go.injEq, reduceCtorEq] at h))
  all_goals (try (obtain ⟨rfl, rfl, rfl⟩ := h))
  all_goals (try (simp [List.length_drop]; done))
  all_goals (try (simp [List.length_drop]; omega))

/-- The iteration bound of `chunk_loop` is irrelevant once it is at least the
measure of the state: the loop ends before the bound is reached. -/
theorem chunk_loop_fuel (f1 f2 : Nat) (state : state_t) (rest : List Nat) (p : parser)
    (h1 : loop_measure state rest ≤ f1) (h2 : loop_measure state rest ≤ f2) :
    chunk_loop f1 state rest p = chunk_loop f2 state rest p := by
  induction f1 generalizing f2 state rest p with
  | zero =>
    cases rest with
    | nil => cases f2 <;> simp [chunk_loop]
    | cons c rest => simp [loop_measure] at h1
  | succ f1 ih =>
    cases rest with
    | nil => cases f2 <;> simp [chunk_loop]
    | cons c rest =>
      cases f2 with
      | zero => simp [loop_measure] at h2
      | succ f2 =>
        simp only [chunk_loop]
        cases hs : chunk_switch state c rest p with
        | ret rest1 p1 => rfl
        | throw rest1 p1 => rfl
        | go state1 rest1 p1 =>
          have hm := chunk_switch_measure hs
          simp only
          split_ifs
          · rfl
          · exact ih _ _ _ _ (by omega) (by omega)
          · exact ih _ _ _ _ (by omega) (by omega)


theorem run_nil (state : state_t) (p : parser) : run state [] p = chunk_exit state [] p := by
  simp [run, chunk_loop]

theorem run_cons (state : state_t) (c : Nat) (rest : List Nat) (p : parser) :
    run state (c :: rest) p =
      match chunk_switch state c rest p with
      | .ret rest1 p1 => (rest1, .Error, p1)
      | .throw rest1 p1 => (rest1, .length_error, p1)
      | .go state1 rest1 p1 =>
        if state1 = .Start then
          if (array_complete p1)._array_sizes = [] then chunk_exit state1 rest1 (array_complete p1)
          else run state1 rest1 (array_complete p1)
        else run state1 rest1 p1 := by
  simp only [run, List.length_cons, chunk_loop, Nat.mul_add]
  cases hs : chunk_switch state c rest p with
  | ret rest1 p1 => rfl
  | throw rest1 p1 => rfl
  | go state1 rest1 p1 =>
    have hm := chunk_switch_measure hs
    have hb := loop_measure_le state (c :: rest)
    have hb1 := loop_measure_le state1 rest1
    simp only [List.length_cons] at hb
    simp only
    split_ifs
    · rfl
    · apply chunk_loop_fuel <;> omega
    · apply chunk_loop_fuel <;> omega

theorem chunk_eq_run (p : parser) (input : List Nat) :
    chunk p input =
      ((input.length - (run (chunk_entry p).1 input (chunk_entry p).2).1.length,
        (run (chunk_entry p).1 input (chunk_entry p).2).2.1),
        (run (chunk_entry p).1 input (chunk_entry p).2).2.2) := rfl

theorem chunk_exit_rest (state : state_t) (rest : List Nat) (p : parser) :
    (chunk_exit state rest p).1 = rest := by
  unfold chunk_exit; split_ifs <;> rfl

theorem run_incompleted (state : state_t) (rest : List Nat) (p : parser)
    (h : (run state rest p).2.1 = .Incompleted) : (run state rest p).1 = [] := by
  obtain ⟨n, hn⟩ : ∃ n, loop_measure state rest = n := ⟨_, rfl⟩
  induction n using Nat.strong_induction_on generalizing state rest p with
  | _ n ih =>
    cases rest with
    | nil => rw [run_nil, chunk_exit_rest]
    | cons c rest =>
      rw [run_cons] at h ⊢
      cases hs : chunk_switch state c rest p with
      | ret rest1 p1 => rw [hs] at h; simp at h
      | throw rest1 p1 => rw [hs] at h; simp at h
      | go state1 rest1 p1 =>
        have hm := chunk_switch_measure hs
        rw [hs] at h
        simp only at h ⊢
        split_ifs at h ⊢ with h1 h2
        · simp [chunk_exit, h1, h2] at h
        · exact ih _ (hn ▸ hm) _ _ _ h rfl
        · exact ih _ (hn ▸ hm) _ _ _ h rfl

theorem chunk_incompleted_length (p : parser) (input : List Nat)
    (h : (chunk p input).1.2 = .Incompleted) : (chunk p input).1.1 = input.length := by
  rw [chunk_eq_run] at h ⊢
  simp only at h ⊢
  rw [run_incompleted _ _ _ h]
  simp

/-- C4: whenever `parse` returns `Incompleted`, whatever the state of the parser
and the input, the returned count is the length of the input. -/
theorem parse_incompleted_consumes_all (p : parser) (input : List Nat)
    (h : (parse p input).1.2 = .Incompleted) : (parse p input).1.1 = input.length :=
  chunk_incompleted_length p input h

theorem parse_incompleted_consumes_all_witness :
    (parse {} (bytes "$6\r\nfo")).1.2 = .Incompleted ∧
      (parse {} (bytes "$6\r\nfo")).1.1 = (bytes "$6\r\nfo").length :=
  ⟨by decide, parse_incompleted_consumes_all {} (bytes "$6\r\nfo") (by decide)⟩
theorem chunk_switch_Bulk (c : Nat) (rest : List Nat) (p : parser) :
    chunk_switch .Bulk c rest p =
      if p._bulk_size ≤ rest.length + 1 then
        .go .BulkCR ((c :: rest).drop p._bulk_size)
          { p with _buf := p._buf ++ (c :: rest).take p._bulk_size, _bulk_size := 0 }
      else
        .go .Bulk [] { p with _buf := p._buf ++ c :: rest,
                              _bulk_size := p._bulk_size - (rest.length + 1) } := by
  simp only [chunk_switch]
  by_cases h : p._bulk_size ≤ rest.length + 1
  · have h1 : min (rest.length + 1) p._bulk_size = p._bulk_size := Nat.min_eq_right h
    simp only [h1, Nat.sub_self, if_true, h]
  · have h1 : min (rest.length + 1) p._bulk_size = rest.length + 1 := Nat.min_eq_left (by omega)
    have h2 : p._bulk_size - (rest.length + 1) ≠ 0 := by omega
    have h3 : (c :: rest).take (rest.length + 1) = c :: rest :=
      List.take_of_length_le (by simp)
    have h4 : (c :: rest).drop (rest.length + 1) = [] :=
      List.drop_of_length_le (by simp)
    simp only [h1, h2, if_false, h, h3, h4]

theorem chunk_switch_BulkSizeLF (rest : List Nat) (p : parser)
    (h1 : to_size_t (to_long p._buf) ≠ to_size_t (-1)) (h2 : to_size_t (to_long p._buf) ≠ 0)
    (hmax : ¬ string_max_size < to_size_t (to_long p._buf)) :
    chunk_switch .BulkSizeLF 10 rest p =
      if to_size_t (to_long p._buf) ≤ rest.length then
        .go .BulkCR (rest.drop (to_size_t (to_long p._buf)))
          { p with _buf := rest.take (to_size_t (to_long p._buf)), _bulk_size := 0 }
      else
        .go .Bulk [] { p with _buf := rest,
                              _bulk_size := to_size_t (to_long p._buf) - rest.length } := by
  simp only [chunk_switch, h1, h2, hmax, if_true, if_false, Nat.not_lt_zero]
  generalize to_size_t (to_long p._buf) = n at h1 h2 hmax ⊢
  by_cases h : n ≤ rest.length
  · have h3 : min n rest.length = n := Nat.min_eq_left h
    have h4 : n > 0 := by omega
    simp [h3, h4, h]
  · have h3 : min n rest.length = rest.length := Nat.min_eq_right (by omega)
    simp only [h3, h, if_false]
    by_cases h5 : rest.length > 0
    · have h6 : n - rest.length > 0 := by omega
      simp [h5, h6]
    · have h6 : rest = [] := List.length_eq_zero.mp (by omega)
      subst h6
      have h7 : n > 0 := by omega
      simp [h7]
theorem chunk_switch_append_ret {state : state_t} {c : Nat} {ra : List Nat} {p : parser}
    {r : List Nat} {p1 : parser} (b : List Nat)
    (h : chunk_switch state c ra p = .ret r p1) :
    chunk_switch state c (ra ++ b) p = .ret (r ++ b) p1 := by
  cases state <;> simp only [chunk_switch, fail] at h ⊢
  all_goals (try split_ifs at h ⊢)
  all_goals (try (simp only [step_t.ret.injEq, reduceCtorEq] at h))
  all_goals (try (obtain ⟨rfl, rfl⟩ := h))
  all_goals (try rfl)

theorem chunk_switch_append_go {state : state_t} {c : Nat} {ra : List Nat} {p : parser}
    {state1 : state_t} {r : List Nat} {p1 : parser} (b : List Nat)
    (h : chunk_switch state c ra p = .go state1 r p1)
    (hb : state1 ≠ .Bulk) :
    chunk_switch state c (ra ++ b) p = .go state1 (r ++ b) p1 := by
  cases state
  case BulkSizeLF =>
    by_cases hc : c = 10
    · subst hc
      by_cases h1 : to_size_t (to_long p._buf) = to_size_t (-1)
      · simp only [chunk_switch, h1, if_true] at h ⊢
        simp only [step_t.go.injEq] at h
        obtain ⟨rfl, rfl, rfl⟩ := h
        rfl
      · by_cases h2 : to_size_t (to_long p._buf) = 0
        · have h0 : ¬ ((0 : Nat) = to_size_t (-1)) := by decide
          simp only [chunk_switch, h2, h0, if_true, if_false] at h ⊢
          simp only [step_t.go.injEq] at h
          obtain ⟨rfl, rfl, rfl⟩ := h
          rfl
        · by_cases hmax : string_max_size < to_size_t (to_long p._buf)
          · simp [chunk_switch, h1, h2, hmax] at h
          rw [chunk_switch_BulkSizeLF _ _ h1 h2 hmax] at h ⊢
          split_ifs at h with h3
          · simp only [step_t.go.injEq] at h
            obtain ⟨rfl, rfl, rfl⟩ := h
            have h4 : to_size_t (to_long p._buf) ≤ (ra ++ b).length := by
              simp only [List.length_append]; omega
            simp only [h4, if_true, List.take_append_of_le_length h3,
              List.drop_append_of_le_length h3]
          · simp only [step_t.go.injEq] at h
            exact absurd h.1.symm hb
    · simp [chunk_switch, fail, hc] at h
  case Bulk =>
    rw [chunk_switch_Bulk] at h ⊢
    split_ifs at h with h3
    · simp only [step_t.go.injEq] at h
      obtain ⟨rfl, rfl, rfl⟩ := h
      have h4 : p._bulk_size ≤ (ra ++ b).length + 1 := by
        simp only [List.length_append]; omega
      have h5 : p._bulk_size ≤ (c :: ra).length := by simpa using h3
      simp only [h4, if_true]
      rw [← List.cons_append, List.take_append_of_le_length h5,
        List.drop_append_of_le_length h5]
    · simp only [step_t.go.injEq] at h
      exact absurd h.1.symm hb
  all_goals simp only [chunk_switch, fail] at h ⊢
  all_goals (try split_ifs at h ⊢)
  all_goals (try (simp only [step_t.go.injEq, reduceCtorEq] at h))
  all_goals (try (obtain ⟨rfl, rfl, rfl⟩ := h))
  all_goals (try rfl)

theorem chunk_switch_append_bulk {state : state_t} {c : Nat} {ra : List Nat} {p : parser}
    {r : List Nat} {p1 : parser} (c1 : Nat) (b : List Nat)
    (h : chunk_switch state c ra p = .go .Bulk r p1) :
    r = [] ∧ chunk_switch state c (ra ++ c1 :: b) p = chunk_switch .Bulk c1 b p1 := by
  cases state
  case BulkSizeLF =>
    by_cases hc : c = 10
    · subst hc
      by_cases h1 : to_size_t (to_long p._buf) = to_size_t (-1)
      · simp [chunk_switch, h1] at h
      · by_cases h2 : to_size_t (to_long p._buf) = 0
        · have h0 : ¬ ((0 : Nat) = to_size_t (-1)) := by decide
          simp [chunk_switch, h2, h0] at h
        · by_cases hmax : string_max_size < to_size_t (to_long p._buf)
          · simp [chunk_switch, h1, h2, hmax] at h
          rw [chunk_switch_BulkSizeLF _ _ h1 h2 hmax] at h ⊢
          rw [chunk_switch_Bulk]
          split_ifs at h with h3
          · simp at h
          simp only [step_t.go.injEq, true_and] at h
          obtain ⟨rfl, rfl⟩ := h
          refine ⟨rfl, ?_⟩
          simp only [List.length_append, List.length_cons]
          generalize to_size_t (to_long p._buf) = n at h1 h2 h3 hmax ⊢
          by_cases h4 : n ≤ ra.length + (b.length + 1)
          · have h5 : n - ra.length ≤ b.length + 1 := by omega
            simp only [h4, h5, if_true, List.take_append_eq_append_take,
              List.drop_append_eq_append_drop]
            have h6 : ra.take n = ra := List.take_of_length_le (by omega)
            have h7 : ra.drop n = [] := List.drop_of_length_le (by omega)
            simp [h6, h7]
          · have h5 : ¬ (n - ra.length ≤ b.length + 1) := by omega
            simp only [h4, h5, if_false]
            simp
            omega
    · simp [chunk_switch, fail, hc] at h
  case Bulk =>
    rw [chunk_switch_Bulk] at h ⊢
    rw [chunk_switch_Bulk]
    split_ifs at h with h3
    · simp at h
    simp only [step_t.go.injEq, true_and] at h
    obtain ⟨rfl, rfl⟩ := h
    refine ⟨rfl, ?_⟩
    simp only [List.length_append, List.length_cons]
    by_cases h4 : p._bulk_size ≤ ra.length + (b.length + 1) + 1
    · have h5 : p._bulk_size - (ra.length + 1) ≤ b.length + 1 := by omega
      simp only [h4, h5, if_true]
      rw [← List.cons_append, List.take_append_eq_append_take,
        List.drop_append_eq_append_drop]
      have h6 : (c :: ra).take p._bulk_size = c :: ra := List.take_of_length_le (by simp; omega)
      have h7 : (c :: ra).drop p._bulk_size = [] := List.drop_of_length_le (by simp; omega)
      simp [h6, h7]
    · have h5 : ¬ (p._bulk_size - (ra.length + 1) ≤ b.length + 1) := by omega
      simp only [h4, h5, if_false]
      simp
      omega
  all_goals simp only [chunk_switch, fail] at h
  all_goals (try split_ifs at h)
  all_goals (try (simp only [step_t.go.injEq, reduceCtorEq, false_and] at h))
theorem chunk_switch_append_throw {state : state_t} {c : Nat} {ra : List Nat} {p : parser}
    {r : List Nat} {p1 : parser} (b : List Nat)
    (h : chunk_switch state c ra p = .throw r p1) :
    chunk_switch state c (ra ++ b) p = .throw (r ++ b) p1 := by
  cases state <;> simp only [chunk_switch, fail] at h ⊢
  all_goals (try split_ifs at h ⊢)
  all_goals (try (simp only [step_t.throw.injEq, reduceCtorEq] at h))
  all_goals (try (obtain ⟨rfl, rfl⟩ := h))
  all_goals (try rfl)

theorem chunk_entry_push (state : state_t) (p : parser) :
    chunk_entry { p with _states := state :: p._states } = (state, p) := rfl

theorem run_then_exit (state : state_t) (p : parser) (b : List Nat)
    (h : ¬ (p._array_sizes = [] ∧ state = .Start)) :
    run_then (chunk_exit state [] p) b = run state b p := by
  simp only [chunk_exit, h, if_false, run_then, if_true, chunk_entry_push]

theorem run_append (state : state_t) (a : List Nat) (c1 : Nat) (b : List Nat) (p : parser)
    (ha : a ≠ []) :
    run state (a ++ c1 :: b) p = run_then (run state a p) (c1 :: b) := by
  obtain ⟨n, hn⟩ : ∃ n, loop_measure state a = n := ⟨_, rfl⟩
  induction n using Nat.strong_induction_on generalizing state a p with
  | _ n ih =>
    cases a with
    | nil => exact absurd rfl ha
    | cons c ra =>
      have key : ∀ (state1 : state_t) (r : List Nat) (p1 : parser),
          loop_measure state1 r < n → ¬ (p1._array_sizes = [] ∧ state1 = .Start) →
          run state1 (r ++ c1 :: b) p1 = run_then (run state1 r p1) (c1 :: b) := by
        intro state1 r p1 hlt hne
        cases r with
        | nil => rw [run_nil, run_then_exit _ _ _ hne]; rfl
        | cons c2 r2 => exact ih _ hlt _ _ _ (by simp) rfl
      rw [List.cons_append, run_cons, run_cons]
      cases hs : chunk_switch state c ra p with
      | ret r p1 =>
        rw [chunk_switch_append_ret _ hs]
        simp [run_then]
      | throw r p1 =>
        rw [chunk_switch_append_throw _ hs]
        simp [run_then]
      | go state1 r p1 =>
        have hm := chunk_switch_measure hs
        rw [hn] at hm
        by_cases hb : state1 = .Bulk
        · subst hb
          obtain ⟨rfl, h2⟩ := chunk_switch_append_bulk c1 b hs
          rw [h2]
          simp only [reduceCtorEq, if_false]
          rw [run_nil, run_then_exit _ _ _ (by simp), run_cons]
        · rw [chunk_switch_append_go _ hs hb]
          simp only
          split_ifs with h1 h2
          · simp [chunk_exit, h1, h2, run_then]
          · exact key _ _ _ hm (by simp [h2])
          · exact key _ _ _ hm (by simp [h1])
theorem chunk_switch_ret_rest {state : state_t} {c : Nat} {rest : List Nat} {p : parser}
    {r : List Nat} {p1 : parser} (h : chunk_switch state c rest p = .ret r p1) : r = rest := by
  cases state <;> simp only [chunk_switch, fail] at h
  all_goals (try split_ifs at h)
  all_goals (try (simp only [step_t.ret.injEq, reduceCtorEq] at h))
  all_goals (try exact h.1.symm)

theorem chunk_switch_throw_rest {state : state_t} {c : Nat} {rest : List Nat} {p : parser}
    {r : List Nat} {p1 : parser} (h : chunk_switch state c rest p = .throw r p1) : r = rest := by
  cases state <;> simp only [chunk_switch, fail] at h
  all_goals (try split_ifs at h)
  all_goals (try (simp only [step_t.throw.injEq, reduceCtorEq] at h))
  all_goals (try exact h.1.symm)

theorem string_max_size_lt : string_max_size < 2 ^ 63 := by
  unfold string_max_size
  norm_num

theorem vector_max_size_lt : vector_max_size < 2 ^ 63 := by
  unfold vector_max_size
  norm_num

theorem run_rest_length_le (state : state_t) (rest : List Nat) (p : parser) :
    (run state rest p).1.length ≤ rest.length := by
  obtain ⟨n, hn⟩ : ∃ n, loop_measure state rest = n := ⟨_, rfl⟩
  induction n using Nat.strong_induction_on generalizing state rest p with
  | _ n ih =>
    cases rest with
    | nil => rw [run_nil, chunk_exit_rest]
    | cons c rest =>
      rw [run_cons]
      cases hs : chunk_switch state c rest p with
      | ret rest1 p1 =>
        rw [chunk_switch_ret_rest hs]
        simp
      | throw rest1 p1 =>
        rw [chunk_switch_throw_rest hs]
        simp
      | go state1 rest1 p1 =>
        have hm := chunk_switch_measure hs
        have hlen : rest1.length ≤ (c :: rest).length := by
          have h1 := loop_measure_le state (c :: rest)
          simp only [loop_measure] at hm h1 ⊢
          split_ifs at hm <;> omega
        simp only
        split_ifs
        · rw [chunk_exit_rest]; exact hlen
        · exact le_trans (ih _ (hn ▸ hm) _ _ _ rfl) hlen
        · exact le_trans (ih _ (hn ▸ hm) _ _ _ rfl) hlen

theorem chunk_consumed_le (p : parser) (input : List Nat) :
    (chunk p input).1.1 ≤ input.length := by
  rw [chunk_eq_run]
  exact Nat.sub_le _ _

/-- One call of `chunk` on `a ++ b` is the call on `a` followed, when that call
is `Incompleted`, by the call on `b`. -/
theorem chunk_append (p : parser) (a : List Nat) (c1 : Nat) (b : List Nat) (ha : a ≠ []) :
    chunk p (a ++ c1 :: b) =
      if (chunk p a).1.2 = .Incompleted then
        ((a.length + (chunk (chunk p a).2 (c1 :: b)).1.1, (chunk (chunk p a).2 (c1 :: b)).1.2),
          (chunk (chunk p a).2 (c1 :: b)).2)
      else chunk p a := by
  simp only [chunk_eq_run]
  rw [run_append _ _ _ _ _ ha]
  unfold run_then
  have hle := run_rest_length_le (chunk_entry p).1 a (chunk_entry p).2
  split_ifs with h
  · have hle2 := run_rest_length_le (chunk_entry (run (chunk_entry p).1 a (chunk_entry p).2).2.2).1
      (c1 :: b) (chunk_entry (run (chunk_entry p).1 a (chunk_entry p).2).2.2).2
    simp only [List.length_append, Prod.mk.injEq, and_true]
    omega
  · simp only [List.length_append, Prod.mk.injEq, and_true]
    omega

theorem parse_all_split (frags : List (List Nat)) (p : parser)
    (hk : frags ≠ []) (hne : ∀ f ∈ frags, f ≠ [])
    (hB : (parse p frags.flatten).1 = (frags.flatten.length, .Completed)) :
    (parse_all p frags).1.map Prod.snd
        = List.replicate (frags.length - 1) .Incompleted ++ [.Completed] ∧
      (parse_all p frags).1.map Prod.fst = frags.map List.length ∧
      (parse_all p frags).2 = (parse p frags.flatten).2 := by
  induction frags generalizing p with
  | nil => exact absurd rfl hk
  | cons f fs ih =>
    cases fs with
    | nil =>
      simp only [List.flatten, List.append_nil] at hB ⊢
      simp [parse_all, hB]
    | cons g gs =>
      have hf : f ≠ [] := hne f (by simp)
      have hg : g ≠ [] := hne g (by simp)
      obtain ⟨c1, g1, rfl⟩ := List.exists_cons_of_ne_nil hg
      have hj : (f :: (c1 :: g1) :: gs).flatten = f ++ c1 :: (g1 ++ gs.flatten) := by simp
      rw [hj] at hB ⊢
      unfold parse at hB ⊢
      rw [chunk_append _ _ _ _ hf] at hB ⊢
      have hle := chunk_consumed_le p f
      by_cases hi : (chunk p f).1.2 = .Incompleted
      · simp only [hi, if_true] at hB ⊢
        have hB2 : (parse (chunk p f).2 ((c1 :: g1) :: gs).flatten).1
            = (((c1 :: g1) :: gs).flatten.length, .Completed) := by
          have e : ((c1 :: g1) :: gs).flatten = c1 :: (g1 ++ gs.flatten) := by simp
          rw [e]
          unfold parse
          simp only [Prod.mk.injEq, List.length_append, List.length_cons] at hB ⊢
          refine Prod.ext ?_ hB.2
          simp only [List.length_append, List.length_cons]
          omega
        obtain ⟨i1, i2, i3⟩ := ih (chunk p f).2 (by simp) (fun x hx => hne x (by simp [hx])) hB2
        have hc := chunk_incompleted_length p f hi
        have e : ((c1 :: g1) :: gs).flatten = c1 :: (g1 ++ gs.flatten) := by simp
        refine ⟨?_, ?_, ?_⟩
        · show (chunk p f).1.2 :: List.map Prod.snd (parse_all (chunk p f).2 _).1 = _
          rw [i1, hi]
          simp [List.replicate_succ]
        · show (chunk p f).1.1 :: List.map Prod.fst (parse_all (chunk p f).2 _).1 = _
          rw [i2, hc]
          rfl
        · show (parse_all (chunk p f).2 _).2 = _
          rw [i3, e]
          rfl
      · simp only [hi, if_false] at hB
        rw [hB] at hle
        simp only [List.length_append, List.length_cons] at hle
        omega

/-- C1: split-insensitivity of `parser::parse`.  When a new parser returns
`(len B, Completed)` on `B`, then for every partition of `B` into `k ≥ 1`
non-empty fragments fed in order to one new parser, the first `k - 1` calls
return `Incompleted`, the last call returns `Completed`, every call consumes its
whole fragment, and `result()` after the last call is the value obtained from
`B` in one call. -/
theorem parse_split_insensitive (B : List Nat) (frags : List (List Nat))
    (hk : frags ≠ []) (hne : ∀ f ∈ frags, f ≠ []) (hjoin : frags.flatten = B)
    (hB : (parse {} B).1 = (B.length, .Completed)) :
    (parse_all {} frags).1.map Prod.snd
        = List.replicate (frags.length - 1) .Incompleted ++ [.Completed] ∧
      (parse_all {} frags).1.map Prod.fst = frags.map List.length ∧
      (parse_all {} frags).2.result = (parse {} B).2.result := by
  subst hjoin
  obtain ⟨h1, h2, h3⟩ := parse_all_split frags {} hk hne hB
  exact ⟨h1, h2, by rw [h3]⟩

theorem parse_split_insensitive_witness :
    ([bytes "*2\r\n$6\r\nfo", bytes "obar\r", bytes "\n:1", bytes "2\r\n"] ≠ [] ∧
      (∀ f ∈ [bytes "*2\r\n$6\r\nfo", bytes "obar\r", bytes "\n:1", bytes "2\r\n"], f ≠ []) ∧
      [bytes "*2\r\n$6\r\nfo", bytes "obar\r", bytes "\n:1", bytes "2\r\n"].flatten
        = bytes "*2\r\n$6\r\nfoobar\r\n:12\r\n" ∧
      (parse {} (bytes "*2\r\n$6\r\nfoobar\r\n:12\r\n")).1
        = ((bytes "*2\r\n$6\r\nfoobar\r\n:12\r\n").length, .Completed)) ∧
    ((parse_all {} [bytes "*2\r\n$6\r\nfo", bytes "obar\r", bytes "\n:1", bytes "2\r\n"]).1.map
          Prod.snd
        = List.replicate
            ([bytes "*2\r\n$6\r\nfo", bytes "obar\r", bytes "\n:1", bytes "2\r\n"].length - 1)
            .Incompleted ++ [.Completed] ∧
      (parse_all {} [bytes "*2\r\n$6\r\nfo", bytes "obar\r", bytes "\n:1", bytes "2\r\n"]).1.map
          Prod.fst
        = [bytes "*2\r\n$6\r\nfo", bytes "obar\r", bytes "\n:1", bytes "2\r\n"].map List.length ∧
      (parse_all {} [bytes "*2\r\n$6\r\nfo", bytes "obar\r", bytes "\n:1", bytes "2\r\n"]).2.result
        = (parse {} (bytes "*2\r\n$6\r\nfoobar\r\n:12\r\n")).2.result) :=
  ⟨⟨by decide, by decide, by decide, by decide⟩,
    parse_split_insensitive (bytes "*2\r\n$6\r\nfoobar\r\n:12\r\n")
      [bytes "*2\r\n$6\r\nfo", bytes "obar\r", bytes "\n:1", bytes "2\r\n"]
      (by decide) (by decide) (by decide) (by decide)⟩
theorem wrap64_of_range (x : Int) (h1 : -(2 : Int) ^ 63 ≤ x) (h2 : x < (2 : Int) ^ 63) :
    wrap64 x = x := by
  unfold wrap64 Int.bmod
  norm_num at h1 h2 ⊢
  split_ifs <;> omega

theorem wrap64_step (x : Int) (d : Int) :
    wrap64 (wrap64 (wrap64 x * 10) + d) = wrap64 (x * 10 + d) := by
  unfold wrap64
  rw [Int.bmod_add_bmod_congr, ← Int.bmod_add_bmod_congr, Int.bmod_mul_bmod,
    Int.bmod_add_bmod_congr]

theorem wrap64_neg (x : Int) : wrap64 (- wrap64 x) = wrap64 (- x) := by
  unfold wrap64
  rw [← Int.zero_sub, Int.sub_bmod_bmod, Int.zero_sub]

theorem to_long_loop_wrap (str : List Nat) (x : Int) :
    to_long_loop str (wrap64 x)
      = wrap64 (str.foldl (fun v c => v * 10 + (char_to_int c - 48)) x) := by
  induction str generalizing x with
  | nil => rfl
  | cons c str ih =>
    simp only [to_long_loop, List.foldl_cons]
    rw [wrap64_step, ih]

theorem wrap64_zero : wrap64 0 = 0 := by decide

theorem decimal_loop_foldl (fuel n : Nat) (acc : List Nat) (h : n < fuel) :
    (decimal_loop fuel n acc).foldl (fun v c => v * 10 + (char_to_int c - 48)) 0
      = acc.foldl (fun v c => v * 10 + (char_to_int c - 48)) (n : Int) := by
  induction fuel generalizing n acc with
  | zero => omega
  | succ fuel ih =>
    unfold decimal_loop
    split_ifs with h10
    · have e : char_to_int (48 + n) - 48 = (n : Int) := by
        have hlt : 48 + n < 128 := by omega
        unfold char_to_int
        rw [if_pos hlt]
        push_cast
        omega
      simp only [List.foldl_cons, e]
      simp
    · rw [ih (n / 10) _ (by omega)]
      have e : char_to_int (48 + n % 10) - 48 = ((n % 10 : Nat) : Int) := by
        have hlt : 48 + n % 10 < 128 := by omega
        unfold char_to_int
        rw [if_pos hlt]
        push_cast
        omega
      simp only [List.foldl_cons, e]
      congr 1
      omega

/-- The helper `to_long` reads the decimal notation of a natural number back, up
to the wrap to 64 bits. -/
theorem to_long_loop_decimal (n : Nat) : to_long_loop (decimal n) 0 = wrap64 n := by
  have h := to_long_loop_wrap (decimal n) 0
  rw [wrap64_zero] at h
  rw [h, decimal, decimal_loop_foldl _ _ _ (by omega)]
  rfl

theorem decimal_loop_ne_nil (fuel n : Nat) (acc : List Nat) (h : n < fuel) :
    ∃ c r, decimal_loop fuel n acc = c :: r ∧ isdigit c = true := by
  induction fuel generalizing n acc with
  | zero => omega
  | succ fuel ih =>
    unfold decimal_loop
    split_ifs with h10
    · exact ⟨48 + n, acc, rfl, by (simp only [isdigit, Bool.and_eq_true, decide_eq_true_eq]; omega)⟩
    · exact ih (n / 10) _ (by omega)

theorem decimal_cons (n : Nat) : ∃ c r, decimal n = c :: r ∧ isdigit c = true :=
  decimal_loop_ne_nil _ _ _ (by omega)

theorem decimal_loop_digits (fuel n : Nat) (acc : List Nat)
    (hacc : ∀ c ∈ acc, isdigit c = true) : ∀ c ∈ decimal_loop fuel n acc, isdigit c = true := by
  induction fuel generalizing n acc with
  | zero => exact hacc
  | succ fuel ih =>
    unfold decimal_loop
    split_ifs with h10
    · intro c hc
      rcases List.mem_cons.mp hc with rfl | hc
      · (simp only [isdigit, Bool.and_eq_true, decide_eq_true_eq]; omega)
      · exact hacc c hc
    · apply ih
      intro c hc
      rcases List.mem_cons.mp hc with rfl | hc
      · (simp only [isdigit, Bool.and_eq_true, decide_eq_true_eq]; omega)
      · exact hacc c hc

theorem decimal_digits (n : Nat) : ∀ c ∈ decimal n, isdigit c = true :=
  decimal_loop_digits _ _ _ (by simp)

theorem to_long_decimal (n : Nat) (h : n < 2 ^ 63) : to_long (decimal n) = n := by
  obtain ⟨c, r, hd, hc⟩ := decimal_cons n
  have h45 : c ≠ 45 := by
    intro e; subst e; simp [isdigit] at hc
  have hl := to_long_loop_decimal n
  rw [hd] at hl
  rw [hd]
  simp only [to_long, h45, if_false]
  rw [hl]
  apply wrap64_of_range <;> norm_num <;> omega

theorem to_long_decimal_int (i : Int) (h1 : -(2 : Int) ^ 63 ≤ i) (h2 : i < (2 : Int) ^ 63) :
    to_long (decimal_int i) = i := by
  unfold decimal_int
  split_ifs with hneg
  · obtain ⟨c, r, hd, hc⟩ := decimal_cons i.natAbs
    have hl := to_long_loop_decimal i.natAbs
    simp only [to_long, if_true]
    rw [if_neg (by rw [hd]; simp), hl, wrap64_neg]
    have e : -((i.natAbs : Nat) : Int) = i := by omega
    rw [e]
    exact wrap64_of_range i h1 h2
  · have e : ((i.natAbs : Nat) : Int) = i := by omega
    rw [to_long_decimal _ (by norm_num at h2 ⊢; omega), e]
theorem run_go {state : state_t} {c : Nat} {rest : List Nat} {p : parser}
    {state1 : state_t} {rest1 : List Nat} {p1 : parser}
    (h : chunk_switch state c rest p = .go state1 rest1 p1) (hs : state1 ≠ .Start) :
    run state (c :: rest) p = run state1 rest1 p1 := by
  rw [run_cons, h]
  simp only [hs, if_false]

theorem run_go_start {state : state_t} {c : Nat} {rest : List Nat} {p : parser}
    {rest1 : List Nat} {p1 : parser}
    (h : chunk_switch state c rest p = .go .Start rest1 p1) :
    run state (c :: rest) p = after_value rest1 p1 := by
  rw [run_cons, h]
  simp only [if_true, after_value]

theorem run_ret {state : state_t} {c : Nat} {rest : List Nat} {p : parser}
    {rest1 : List Nat} {p1 : parser}
    (h : chunk_switch state c rest p = .ret rest1 p1) :
    run state (c :: rest) p = (rest1, .Error, p1) := by
  rw [run_cons, h]

theorem run_throw {state : state_t} {c : Nat} {rest : List Nat} {p : parser}
    {rest1 : List Nat} {p1 : parser}
    (h : chunk_switch state c rest p = .throw rest1 p1) :
    run state (c :: rest) p = (rest1, .length_error, p1) := by
  rw [run_cons, h]

/-- The three header states collect digits and `-` into `_buf`. -/
theorem run_digits (state : state_t)
    (hst : state = .Integer ∨ state = .BulkSize ∨ state = .ArraySize)
    (ds : List Nat) (hds : ∀ c ∈ ds, isdigit c = true ∨ c = 45) (rest : List Nat) (p : parser) :
    run state (ds ++ rest) p = run state rest { p with _buf := p._buf ++ ds } := by
  induction ds generalizing p with
  | nil => simp
  | cons c ds ih =>
    have hc := hds c (by simp)
    have h13 : c ≠ 13 := by
      rcases hc with h | h
      · simp only [isdigit, Bool.and_eq_true, decide_eq_true_eq] at h; omega
      · omega
    have hd : (isdigit c || decide (c = 45)) = true := by
      rcases hc with h | h <;> simp [h]
    have hstep : chunk_switch state c (ds ++ rest) p
        = .go state (ds ++ rest) { p with _buf := p._buf ++ [c] } := by
      rcases hst with rfl | rfl | rfl <;> simp only [chunk_switch, h13, if_false, hd, if_true]
    have hne : state ≠ .Start := by
      rcases hst with rfl | rfl | rfl <;> simp
    rw [List.cons_append, run_go hstep hne, ih (fun x hx => hds x (by simp [hx]))]
    simp

/-- The two text states collect printable bytes into `_buf`. -/
theorem run_text (state : state_t) (hst : state = .String ∨ state = .ErrorString)
    (t : List Nat) (ht : ∀ c ∈ t, 32 ≤ c ∧ c ≤ 126) (rest : List Nat) (p : parser) :
    run state (t ++ rest) p = run state rest { p with _buf := p._buf ++ t } := by
  induction t generalizing p with
  | nil => simp
  | cons c t ih =>
    have hc := ht c (by simp)
    have h13 : c ≠ 13 := by omega
    have hd : (is_char (char_to_int c) && !is_control (char_to_int c)) = true := by
      have h128 : c < 128 := by omega
      simp only [char_to_int, h128, if_true, is_char, is_control, Bool.and_eq_true,
        decide_eq_true_eq, Bool.not_eq_true', Bool.or_eq_false_iff, Bool.and_eq_false_imp,
        decide_eq_false_iff_not]
      omega
    have hstep : chunk_switch state c (t ++ rest) p
        = .go state (t ++ rest) { p with _buf := p._buf ++ [c] } := by
      rcases hst with rfl | rfl <;> simp only [chunk_switch, h13, if_false, hd, if_true]
    have hne : state ≠ .Start := by
      rcases hst with rfl | rfl <;> simp
    rw [List.cons_append, run_go hstep hne, ih (fun x hx => ht x (by simp [hx]))]
    simp
theorem decimal_digits_or (n : Nat) : ∀ c ∈ decimal n, isdigit c = true ∨ c = 45 :=
  fun c hc => Or.inl (decimal_digits n c hc)

theorem decimal_int_digits_or (i : Int) : ∀ c ∈ decimal_int i, isdigit c = true ∨ c = 45 := by
  intro c hc
  unfold decimal_int at hc
  split_ifs at hc
  · rcases List.mem_cons.mp hc with h | h
    · exact Or.inr h
    · exact Or.inl (decimal_digits _ c h)
  · exact Or.inl (decimal_digits _ c hc)

theorem decimal_ne_nil (n : Nat) : decimal n ≠ [] := by
  obtain ⟨c, r, h, _⟩ := decimal_cons n
  simp [h]

theorem decimal_int_ne_nil (i : Int) : decimal_int i ≠ [] := by
  unfold decimal_int
  split_ifs
  · simp
  · exact decimal_ne_nil _

/-- An integer frame, read from the top of a value. -/
theorem run_int (state : state_t) (hst : state = .Start ∨ state = .StartArray)
    (ds : List Nat) (hds : ∀ c ∈ ds, isdigit c = true ∨ c = 45) (hne : ds ≠ [])
    (R : List Nat) (p : parser) :
    run state (58 :: (ds ++ 13 :: 10 :: R)) p
      = after_value R { p with _buf := [], _value := value.int 0 (to_long ds) } := by
  have h1 : chunk_switch state 58 (ds ++ 13 :: 10 :: R) p
      = .go .Integer (ds ++ 13 :: 10 :: R) { p with _buf := [] } := by
    rcases hst with rfl | rfl <;> rfl
  rw [run_go h1 (by simp), run_digits _ (Or.inl rfl) ds hds]
  have h2 : chunk_switch .Integer 13 (10 :: R) { p with _buf := [] ++ ds }
      = .go .IntegerLF (10 :: R) { p with _buf := [] ++ ds } := by
    simp [chunk_switch, hne]
  rw [run_go h2 (by simp)]
  have h3 : chunk_switch .IntegerLF 10 R { p with _buf := [] ++ ds }
      = .go .Start R { p with _buf := [], _value := value.int 0 (to_long ds) } := by
    simp [chunk_switch]
  rw [run_go_start h3]

/-- A simple-string frame ( `+` ), read from the top of a value. -/
theorem run_status (state : state_t) (hst : state = .Start ∨ state = .StartArray)
    (t : List Nat) (ht : ∀ c ∈ t, 32 ≤ c ∧ c ≤ 126) (R : List Nat) (p : parser) :
    run state (43 :: (t ++ 13 :: 10 :: R)) p
      = after_value R { p with _buf := t, _value := value.string 0 t } := by
  have h1 : chunk_switch state 43 (t ++ 13 :: 10 :: R) p
      = .go .String (t ++ 13 :: 10 :: R) { p with _buf := [] } := by
    rcases hst with rfl | rfl <;> rfl
  rw [run_go h1 (by simp), run_text _ (Or.inl rfl) t ht]
  have h2 : chunk_switch .String 13 (10 :: R) { p with _buf := [] ++ t }
      = .go .StringLF (10 :: R) { p with _buf := [] ++ t } := by
    simp [chunk_switch]
  rw [run_go h2 (by simp)]
  have h3 : chunk_switch .StringLF 10 R { p with _buf := [] ++ t }
      = .go .Start R { p with _buf := t, _value := value.string 0 t } := by
    simp [chunk_switch]
  rw [run_go_start h3]

/-- An error frame ( `-` ), read from the top of a value. -/
theorem run_error (state : state_t) (hst : state = .Start ∨ state = .StartArray)
    (t : List Nat) (ht : ∀ c ∈ t, 32 ≤ c ∧ c ≤ 126) (R : List Nat) (p : parser) :
    run state (45 :: (t ++ 13 :: 10 :: R)) p
      = after_value R { p with _buf := t, _value := value.string 0 t } := by
  have h1 : chunk_switch state 45 (t ++ 13 :: 10 :: R) p
      = .go .ErrorString (t ++ 13 :: 10 :: R) { p with _buf := [] } := by
    rcases hst with rfl | rfl <;> rfl
  rw [run_go h1 (by simp), run_text _ (Or.inr rfl) t ht]
  have h2 : chunk_switch .ErrorString 13 (10 :: R) { p with _buf := [] ++ t }
      = .go .ErrorLF (10 :: R) { p with _buf := [] ++ t } := by
    simp [chunk_switch]
  rw [run_go h2 (by simp)]
  have h3 : chunk_switch .ErrorLF 10 R { p with _buf := [] ++ t }
      = .go .Start R { p with _buf := t, _value := value.string 0 t } := by
    simp [chunk_switch]
  rw [run_go_start h3]

/-- The nil frame `$-1`, read from the top of a value. -/
theorem run_null (state : state_t) (hst : state = .Start ∨ state = .StartArray)
    (R : List Nat) (p : parser) :
    run state (36 :: 45 :: 49 :: 13 :: 10 :: R) p
      = after_value R { p with _buf := [], _bulk_size := to_size_t (-1),
                               _value := value.null 0 } := by
  have h1 : chunk_switch state 36 (45 :: 49 :: 13 :: 10 :: R) p
      = .go .BulkSize (45 :: 49 :: 13 :: 10 :: R) { p with _buf := [], _bulk_size := 0 } := by
    rcases hst with rfl | rfl <;> rfl
  rw [run_go h1 (by simp)]
  have h2 : chunk_switch .BulkSize 45 (49 :: 13 :: 10 :: R) { p with _buf := [], _bulk_size := 0 }
      = .go .BulkSize (49 :: 13 :: 10 :: R) { p with _buf := [45], _bulk_size := 0 } := by
    simp [chunk_switch, isdigit]
  have h3 : chunk_switch .BulkSize 49 (13 :: 10 :: R) { p with _buf := [45], _bulk_size := 0 }
      = .go .BulkSize (13 :: 10 :: R) { p with _buf := [45, 49], _bulk_size := 0 } := by
    simp [chunk_switch, isdigit]
  have h4 : chunk_switch .BulkSize 13 (10 :: R) { p with _buf := [45, 49], _bulk_size := 0 }
      = .go .BulkSizeLF (10 :: R) { p with _buf := [45, 49], _bulk_size := 0 } := by
    simp [chunk_switch]
  have h5 : to_long [45, 49] = -1 := by decide
  have h6 : chunk_switch .BulkSizeLF 10 R { p with _buf := [45, 49], _bulk_size := 0 }
      = .go .Start R { p with _buf := [], _bulk_size := to_size_t (-1),
                              _value := value.null 0 } := by
    simp [chunk_switch, h5]
  rw [run_go h2 (by simp), run_go h3 (by simp), run_go h4 (by simp), run_go_start h6]

/-- The line end after the bytes of a bulk completes the string. -/
theorem run_bulk_tail (R : List Nat) (p : parser) :
    run .BulkCR (13 :: 10 :: R) p = after_value R { p with _value := value.string 0 p._buf } := by
  have h1 : chunk_switch .BulkCR 13 (10 :: R) p = .go .BulkLF (10 :: R) p := by
    simp [chunk_switch]
  have h2 : chunk_switch .BulkLF 10 R p
      = .go .Start R { p with _value := value.string 0 p._buf } := by
    simp [chunk_switch]
  rw [run_go h1 (by simp), run_go_start h2]

/-- A bulk frame, read from the top of a value. -/
theorem run_bulk (state : state_t) (hst : state = .Start ∨ state = .StartArray)
    (s : List Nat) (hmax : s.length ≤ string_max_size) (R : List Nat) (p : parser) :
    run state (36 :: (decimal s.length ++ ([13, 10] ++ (s ++ [13, 10]))) ++ R) p
      = after_value R { p with _buf := s, _bulk_size := 0, _value := value.string 0 s } := by
  have hs : s.length < 2 ^ 63 := lt_of_le_of_lt hmax string_max_size_lt
  have e : 36 :: (decimal s.length ++ ([13, 10] ++ (s ++ [13, 10]))) ++ R
      = 36 :: (decimal s.length ++ 13 :: 10 :: (s ++ 13 :: 10 :: R)) := by simp
  rw [e]
  have h1 : chunk_switch state 36 (decimal s.length ++ 13 :: 10 :: (s ++ 13 :: 10 :: R)) p
      = .go .BulkSize (decimal s.length ++ 13 :: 10 :: (s ++ 13 :: 10 :: R))
          { p with _buf := [], _bulk_size := 0 } := by
    rcases hst with rfl | rfl <;> rfl
  rw [run_go h1 (by simp), run_digits _ (Or.inr (Or.inl rfl)) _ (decimal_digits_or _)]
  have h2 : chunk_switch .BulkSize 13 (10 :: (s ++ 13 :: 10 :: R))
        { p with _buf := [] ++ decimal s.length, _bulk_size := 0 }
      = .go .BulkSizeLF (10 :: (s ++ 13 :: 10 :: R))
        { p with _buf := decimal s.length, _bulk_size := 0 } := by
    simp [chunk_switch, decimal_ne_nil]
  rw [run_go h2 (by simp)]
  have hl : to_size_t (to_long (decimal s.length)) = s.length := by
    rw [to_long_decimal _ hs]
    unfold to_size_t
    norm_num at hs ⊢
    omega
  by_cases h0 : s.length = 0
  · have hs0 : s = [] := List.length_eq_zero.mp h0
    subst hs0
    have h3 : chunk_switch .BulkSizeLF 10 ([] ++ 13 :: 10 :: R)
          { p with _buf := decimal ([] : List Nat).length, _bulk_size := 0 }
        = .go .BulkCR (13 :: 10 :: R) { p with _buf := [], _bulk_size := 0 } := by
      have hx : ¬ ((0 : Nat) = to_size_t (-1)) := by decide
      simp only [chunk_switch, if_true, hl]
      simp [hx]
    rw [run_go h3 (by simp)]
    rw [run_bulk_tail]
  · have hm1 : to_size_t (to_long (decimal s.length)) ≠ to_size_t (-1) := by
      rw [hl]
      have : to_size_t (-1) = 2 ^ 64 - 1 := by decide
      rw [this]
      omega
    have h3 := chunk_switch_BulkSizeLF (s ++ 13 :: 10 :: R)
      { p with _buf := decimal s.length, _bulk_size := 0 } hm1 (by rw [hl]; exact h0)
      (by rw [hl]; exact not_lt.mpr hmax)
    simp only [hl] at h3
    rw [if_pos (by simp)] at h3
    simp only [List.take_left', List.drop_left'] at h3
    rw [run_go h3 (by simp)]
    rw [run_bulk_tail]
/-- An array header with a positive length, read from the top of a value. -/
theorem run_array_header (state : state_t) (hst : state = .Start ∨ state = .StartArray)
    (n : Nat) (h0 : n ≠ 0) (hmax : n ≤ vector_max_size) (R : List Nat) (p : parser) :
    run state (42 :: (decimal n ++ 13 :: 10 :: R)) p
      = run .StartArray R { p with _buf := decimal n,
                                   _array_sizes := (n : Int) :: p._array_sizes,
                                   _array_values := value.array 0 [] :: p._array_values } := by
  have h1 : chunk_switch state 42 (decimal n ++ 13 :: 10 :: R) p
      = .go .ArraySize (decimal n ++ 13 :: 10 :: R) { p with _buf := [] } := by
    rcases hst with rfl | rfl <;> rfl
  rw [run_go h1 (by simp), run_digits _ (Or.inr (Or.inr rfl)) _ (decimal_digits_or _)]
  have h2 : chunk_switch .ArraySize 13 (10 :: R) { p with _buf := [] ++ decimal n }
      = .go .ArraySizeLF (10 :: R) { p with _buf := decimal n } := by
    simp [chunk_switch, decimal_ne_nil]
  rw [run_go h2 (by simp)]
  have hn : n < 2 ^ 63 := lt_of_le_of_lt hmax vector_max_size_lt
  have hl : to_long (decimal n) = (n : Int) := to_long_decimal n hn
  have h3 : chunk_switch .ArraySizeLF 10 R { p with _buf := decimal n }
      = .go .StartArray R { p with _buf := decimal n,
                                   _array_sizes := (n : Int) :: p._array_sizes,
                                   _array_values := value.array 0 [] :: p._array_values } := by
    have a1 : ¬ ((n : Int) = -1) := by omega
    have a2 : ¬ ((n : Int) = 0) := by omega
    have a3 : ¬ ((n : Int) < 0) := by omega
    have a4 : ¬ (vector_max_size < to_size_t (n : Int)) := by
      have : to_size_t (n : Int) = n := by
        unfold to_size_t
        norm_num at hn ⊢
        omega
      rw [this]
      exact not_lt.mpr hmax
    simp only [chunk_switch, if_true, hl, a1, a2, a3, a4, if_false]
  rw [run_go h3 (by simp)]

/-- The empty array `*0`, read from the top of a value. -/
theorem run_array_empty (state : state_t) (hst : state = .Start ∨ state = .StartArray)
    (R : List Nat) (p : parser) :
    run state (42 :: (decimal 0 ++ 13 :: 10 :: R)) p
      = after_value R { p with _buf := decimal 0, _value := value.array 0 [] } := by
  have h1 : chunk_switch state 42 (decimal 0 ++ 13 :: 10 :: R) p
      = .go .ArraySize (decimal 0 ++ 13 :: 10 :: R) { p with _buf := [] } := by
    rcases hst with rfl | rfl <;> rfl
  rw [run_go h1 (by simp), run_digits _ (Or.inr (Or.inr rfl)) _ (decimal_digits_or _)]
  have h2 : chunk_switch .ArraySize 13 (10 :: R) { p with _buf := [] ++ decimal 0 }
      = .go .ArraySizeLF (10 :: R) { p with _buf := decimal 0 } := by
    simp [chunk_switch, decimal_ne_nil]
  rw [run_go h2 (by simp)]
  have hl : to_long (decimal 0) = 0 := by decide
  have h3 : chunk_switch .ArraySizeLF 10 R { p with _buf := decimal 0 }
      = .go .Start R { p with _buf := decimal 0, _value := value.array 0 [] } := by
    simp [chunk_switch, hl]
  rw [run_go_start h3]

/-- The last element of an array closes it: the array becomes the completed
value, for the array around it if there is one. -/
theorem after_value_last (R : List Nat) (p : parser) (S : List Int) (V : List value)
    (e : Int) (acc : List value)
    (hS : p._array_sizes = 1 :: S) (hV : p._array_values = value.array e acc :: V) :
    after_value R p
      = after_value R { p with _array_sizes := S, _array_values := V,
                               _value := value.array e (acc ++ [p._value]) } := by
  have h : array_complete p
      = array_complete { p with _array_sizes := S, _array_values := V,
                                _value := value.array e (acc ++ [p._value]) } := by
    simp only [array_complete, hS, hV, push_back_top, pop_loop]
    cases S <;> simp [pop_loop]
  simp only [after_value, h]

/-- An element that is not the last one is added and the loop goes on. -/
theorem after_value_more (R : List Nat) (p : parser) (n : Int) (S : List Int) (V : List value)
    (e : Int) (acc : List value) (hn : n - 1 ≠ 0)
    (hS : p._array_sizes = n :: S) (hV : p._array_values = value.array e acc :: V) :
    after_value R p
      = run .Start R { p with _array_sizes := (n - 1) :: S,
                              _array_values := value.array e (acc ++ [p._value]) :: V } := by
  have h : array_complete p
      = { p with _array_sizes := (n - 1) :: S,
                 _array_values := value.array e (acc ++ [p._value]) :: V } := by
    simp [array_complete, hS, hV, push_back_top, pop_loop, hn]
  simp only [after_value, h]
  simp
mutual
/-- The loop of `chunk` reads the encoding of a value from the top of a value,
up to the point where the value is completed. -/
theorem run_enc (v : value) (hv : encodable v = true) (state : state_t)
    (hst : state = .Start ∨ state = .StartArray) (R : List Nat) (p : parser) :
    ∃ buf bs, run state (enc v ++ R) p
      = after_value R { p with _buf := buf, _bulk_size := bs, _value := v } := by
  match v, hv with
  | .null e, hv =>
    simp only [encodable, decide_eq_true_eq] at hv
    subst hv
    exact ⟨[], to_size_t (-1), run_null state hst R p⟩
  | .int e n, hv =>
    simp only [encodable, Bool.and_eq_true, decide_eq_true_eq] at hv
    obtain ⟨⟨rfl, h1⟩, h2⟩ := hv
    refine ⟨[], p._bulk_size, ?_⟩
    have h := run_int state hst (decimal_int n) (decimal_int_digits_or n) (decimal_int_ne_nil n) R p
    rw [to_long_decimal_int n h1 h2] at h
    simpa [enc] using h
  | .string e s, hv =>
    simp only [encodable, Bool.and_eq_true, decide_eq_true_eq] at hv
    obtain ⟨rfl, h1⟩ := hv
    exact ⟨s, 0, run_bulk state hst s h1 R p⟩
  | .array e a, hv =>
    simp only [encodable, Bool.and_eq_true, decide_eq_true_eq] at hv
    obtain ⟨⟨rfl, h1⟩, h2⟩ := hv
    by_cases h0 : a.length = 0
    · have ha : a = [] := List.length_eq_zero.mp h0
      subst ha
      refine ⟨decimal 0, p._bulk_size, ?_⟩
      have h := run_array_empty state hst R p
      simpa [enc, enc_list] using h
    · have ha : a ≠ [] := fun h => h0 (by simp [h])
      have hh := run_array_header state hst a.length h0 h1 (enc_list a ++ R) p
      obtain ⟨buf, bs, hl⟩ := run_enc_list a h2 ha .StartArray (Or.inr rfl) R
        { p with _buf := decimal a.length,
                 _array_sizes := (a.length : Int) :: p._array_sizes,
                 _array_values := value.array 0 [] :: p._array_values }
        0 [] p._array_sizes p._array_values rfl rfl
      refine ⟨buf, bs, ?_⟩
      have e1 : enc (value.array 0 a) ++ R
          = 42 :: (decimal a.length ++ 13 :: 10 :: (enc_list a ++ R)) := by simp [enc]
      rw [e1, hh, hl]
      rfl
/-- The loop of `chunk` reads the encodings of the elements still missing in
the array on top of the stack and closes that array. -/
theorem run_enc_list (vs : List value) (hvs : encodable_list vs = true) (hne : vs ≠ [])
    (state : state_t) (hst : state = .Start ∨ state = .StartArray) (R : List Nat) (p : parser)
    (e : Int) (acc : List value) (S : List Int) (V : List value)
    (hS : p._array_sizes = (vs.length : Int) :: S)
    (hV : p._array_values = value.array e acc :: V) :
    ∃ buf bs, run state (enc_list vs ++ R) p
      = after_value R { p with _buf := buf, _bulk_size := bs, _array_sizes := S,
                               _array_values := V, _value := value.array e (acc ++ vs) } := by
  match vs, hvs, hne with
  | v :: vs1, hvs, _ =>
    simp only [encodable_list, Bool.and_eq_true] at hvs
    obtain ⟨buf, bs, h1⟩ := run_enc v hvs.1 state hst (enc_list vs1 ++ R) p
    have e1 : enc_list (v :: vs1) ++ R = enc v ++ (enc_list vs1 ++ R) := by simp [enc_list]
    rw [e1, h1]
    by_cases h0 : vs1 = []
    · subst h0
      refine ⟨buf, bs, ?_⟩
      rw [after_value_last _ _ S V e acc (by simpa using hS) (by simpa using hV)]
      simp [enc_list]
    · have hn : ((v :: vs1).length : Int) - 1 ≠ 0 := by
        have : vs1.length ≠ 0 := fun h => h0 (List.length_eq_zero.mp h)
        simp only [List.length_cons]
        push_cast
        omega
      rw [after_value_more _ _ _ S V e acc hn (by simpa using hS) (by simpa using hV)]
      obtain ⟨buf2, bs2, h2⟩ := run_enc_list vs1 hvs.2 h0 .Start (Or.inl rfl) R
        { p with _buf := buf, _bulk_size := bs, _value := v,
                 _array_sizes := (((v :: vs1).length : Int) - 1) :: S,
                 _array_values := value.array e (acc ++ [v]) :: V }
        e (acc ++ [v]) S V (by simp) rfl
      refine ⟨buf2, bs2, ?_⟩
      rw [h2]
      simp
end
theorem after_value_idle (R : List Nat) (q : parser) (hq : q._array_sizes = []) :
    after_value R q = (R, .Completed, q) := by
  simp [after_value, array_complete, hq, chunk_exit]

theorem chunk_entry_idle (p : parser) (hp : p._states = []) : chunk_entry p = (.Start, p) := by
  simp [chunk_entry, hp]

/-- A call of `chunk` on a parser between two values, on input that starts with
a frame which the loop reads up to `after_value`. -/
theorem chunk_of_after_value (p : parser) (frame R : List Nat) (q : parser)
    (hp : p._states = []) (hq : q._array_sizes = [])
    (h : run .Start (frame ++ R) p = after_value R q) :
    chunk p (frame ++ R) = ((frame.length, .Completed), q) := by
  rw [chunk_eq_run, chunk_entry_idle p hp]
  simp only [h, after_value_idle R q hq]
  simp

/-- C2: decoding inverts the reference RESP encoding at every nesting depth.
For every value `v` built from nil, 64-bit integers, strings and arrays (nested
to any depth, empty arrays included) and every suffix `R`, a new parser returns
`(len (enc v), Completed)` on `enc v ++ R` and `result()` is `v`. -/
theorem parse_enc_roundtrip (v : value) (hv : encodable v = true) (R : List Nat) :
    (parse {} (enc v ++ R)).1 = ((enc v).length, .Completed) ∧
      (parse {} (enc v ++ R)).2.result = v := by
  obtain ⟨buf, bs, h⟩ := run_enc v hv .Start (Or.inl rfl) R {}
  have hc := chunk_of_after_value {} (enc v) R _ rfl rfl h
  unfold parse
  rw [hc]
  exact ⟨rfl, rfl⟩

theorem parse_enc_roundtrip_witness :
    encodable (.array 0 [.array 0 [], .string 0 (bytes "fo\r\no"), .null 0,
        .array 0 [.int 0 (-42)]]) = true ∧
    ((parse {} (enc (.array 0 [.array 0 [], .string 0 (bytes "fo\r\no"), .null 0,
        .array 0 [.int 0 (-42)]]) ++ bytes "+x")).1
      = ((enc (.array 0 [.array 0 [], .string 0 (bytes "fo\r\no"), .null 0,
        .array 0 [.int 0 (-42)]])).length, .Completed) ∧
     (parse {} (enc (.array 0 [.array 0 [], .string 0 (bytes "fo\r\no"), .null 0,
        .array 0 [.int 0 (-42)]]) ++ bytes "+x")).2.result
      = .array 0 [.array 0 [], .string 0 (bytes "fo\r\no"), .null 0, .array 0 [.int 0 (-42)]]) :=
  ⟨by decide, parse_enc_roundtrip _ (by decide) _⟩

/-- C3: binary safety of bulk strings.  For every byte string `s` (any bytes,
CR, LF and NUL included), a new parser on `$` `decimal (len s)` CR LF `s` CR LF
returns `Completed`, consumes the whole input, and `result().to_string()` is
`s`.  The hypothesis is the bound `max_size()` that the length of every
`std::string` meets. -/
theorem parse_bulk_binary_safe (s : List Nat) (hs : s.length ≤ string_max_size) :
    (parse {} (36 :: (decimal s.length ++ ([13, 10] ++ (s ++ [13, 10]))))).1
        = ((36 :: (decimal s.length ++ ([13, 10] ++ (s ++ [13, 10])))).length, .Completed) ∧
      (parse {} (36 :: (decimal s.length ++ ([13, 10] ++ (s ++ [13, 10]))))).2.result.to_string
        = s := by
  have h := run_bulk .Start (Or.inl rfl) s hs [] {}
  have hc := chunk_of_after_value {} _ [] _ rfl rfl h
  rw [List.append_nil] at hc
  unfold parse
  rw [hc]
  exact ⟨rfl, rfl⟩

theorem parse_bulk_binary_safe_witness :
    [13, 10, 0, 255, 36, 13].length ≤ string_max_size ∧
    ((parse {} (36 :: (decimal [13, 10, 0, 255, 36, 13].length
          ++ ([13, 10] ++ ([13, 10, 0, 255, 36, 13] ++ [13, 10]))))).1
        = ((36 :: (decimal [13, 10, 0, 255, 36, 13].length
          ++ ([13, 10] ++ ([13, 10, 0, 255, 36, 13] ++ [13, 10])))).length, .Completed) ∧
      (parse {} (36 :: (decimal [13, 10, 0, 255, 36, 13].length
          ++ ([13, 10] ++ ([13, 10, 0, 255, 36, 13] ++ [13, 10]))))).2.result.to_string
        = [13, 10, 0, 255, 36, 13]) :=
  ⟨by decide, parse_bulk_binary_safe [13, 10, 0, 255, 36, 13] (by decide)⟩
/-- C6: pub/sub isolation.  For every client, channel `c` and payload `p`,
dispatching the array `["message", c, p]` calls the handler stored in the
subscription map under `c` once with `p` when there is one and calls no handler
otherwise; the pending queue (and everything else) stays as it is. -/
theorem consume_message_push_isolated (cl : client) (e e0 e1 : Int) (c : List Nat) (p : value) :
    ∃ cl1, consume_message cl
        (value.array e [value.string e0 (bytes "message"), value.string e1 c, p]) = .ok cl1 ∧
      cl1._handler = cl._handler ∧
      cl1._subscribe_handler = cl._subscribe_handler ∧
      cl1.parser_ = cl.parser_ ∧
      cl1.trace = cl.trace ++
        (match map_find cl._subscribe_handler c with
         | some h => [event.call h p]
         | none => []) := by
  cases hf : map_find cl._subscribe_handler c with
  | none =>
    refine ⟨cl, ?_, rfl, rfl, rfl, by simp⟩
    simp [consume_message, value.get_string, hf]
  | some h =>
    refine ⟨{ cl with trace := cl.trace ++ [event.call h p] }, ?_, rfl, rfl, rfl, rfl⟩
    simp [consume_message, value.get_string, hf]

theorem run_nil_not_error (state : state_t) (p : parser) :
    (run state [] p).2.1 ≠ .Error := by
  rw [run_nil]
  unfold chunk_exit
  split_ifs <;> simp

/-- C9: the client on malformed input.  For every client with a non-empty
pending queue and every buffer on which the parser returns `Error` in the first
call of `parse`, `input` calls the head handler once with the string
`redis parse error`, removes it from the queue and keeps the rest in order,
makes no other call of `parse`, and returns `end`. -/
theorem input_parse_error (cl : client) (h : Nat) (hs : List Nat) (data : List Nat)
    (hq : cl._handler = h :: hs) (herr : (parse cl.parser_ data).1.2 = .Error) :
    cl.input data = .ok (data.length,
      { cl with parser_ := (parse cl.parser_ data).2,
                _handler := hs,
                trace := cl.trace ++
                  [event.call h (value.string 0 (bytes "redis parse error"))] }) := by
  cases data with
  | nil =>
    exfalso
    exact run_nil_not_error _ _ herr
  | cons c rest =>
    simp only [client.input, List.length_cons, input_loop, herr, consume_message, deliver, hq]
    simp

theorem input_parse_error_witness :
    (({ _handler := [7, 8] } : client)._handler = 7 :: [8] ∧
      (parse ({ _handler := [7, 8] } : client).parser_ (bytes ":1x\r\n+OK\r\n")).1.2 = .Error) ∧
    ({ _handler := [7, 8] } : client).input (bytes ":1x\r\n+OK\r\n")
      = .ok ((bytes ":1x\r\n+OK\r\n").length,
          { ({ _handler := [7, 8] } : client) with
            parser_ := (parse ({ _handler := [7, 8] } : client).parser_
              (bytes ":1x\r\n+OK\r\n")).2,
            _handler := [8],
            trace := ({ _handler := [7, 8] } : client).trace ++
              [event.call 7 (value.string 0 (bytes "redis parse error"))] }) :=
  ⟨⟨rfl, by decide⟩, input_parse_error _ 7 [8] _ rfl (by decide)⟩
theorem command_bytes_foldl (args : List (List Nat)) (init : List Nat) :
    args.foldl (fun cmd item => cmd ++ [36] ++ decimal item.length ++ CRCF ++ item ++ CRCF) init
      = init ++ (args.map fun a => 36 :: (decimal a.length ++ ([13, 10] ++ (a ++ [13, 10])))).flatten := by
  induction args generalizing init with
  | nil => simp
  | cons a args ih =>
    simp only [List.foldl_cons, ih, List.map_cons, List.flatten_cons]
    simp

theorem map_find_insert_new (m : List (List Nat × Nat)) (key : List Nat) (h : Nat)
    (hnew : map_find m key = none) : map_find (map_insert m key h) key = some h := by
  simp only [map_insert, hnew]
  induction m with
  | nil => simp [map_find]
  | cons kv m ih =>
    obtain ⟨k, v⟩ := kv
    simp only [map_find] at hnew ⊢
    split_ifs at hnew with hk
    simp only [List.cons_append, map_find, hk, if_false]
    exact ih hnew

/-- C10: outbound framing.  With a write callback, `command( args, handler )`
calls the write callback exactly once, with the bytes `*` `decimal n` CR LF
followed for each argument by `$` `decimal (len a)` CR LF `a` CR LF, the bytes of
the arguments unchanged; at that call the handler is already at the tail of the
pending queue (no subscribe key) or in the subscription map under the key (a
subscribe key that is not yet in the map): the callback sees the queue and the
map as they are when `command` returns. -/
theorem command_output_framing (cl : client) (args : List (List Nat)) (h : Nat)
    (key : List Nat) (hout : cl._output = true) :
    ∃ pending subs,
      (cl.command args h key).trace = cl.trace ++
        [event.output
          (42 :: (decimal args.length ++ ([13, 10] ++
            (args.map fun a => 36 :: (decimal a.length ++ ([13, 10] ++ (a ++ [13, 10])))).flatten)))
          pending subs] ∧
      pending = (cl.command args h key)._handler ∧
      subs = (cl.command args h key)._subscribe_handler ∧
      (key = [] → pending = cl._handler ++ [h] ∧ subs = cl._subscribe_handler) ∧
      (key ≠ [] → map_find cl._subscribe_handler key = none →
        pending = cl._handler ∧ map_find subs key = some h) := by
  have hb : command_bytes args
      = 42 :: (decimal args.length ++ ([13, 10] ++
          (args.map fun a => 36 :: (decimal a.length ++ ([13, 10] ++ (a ++ [13, 10])))).flatten)) := by
    unfold command_bytes
    rw [command_bytes_foldl]
    simp
  by_cases hk : key = []
  · refine ⟨cl._handler ++ [h], cl._subscribe_handler, ?_, ?_, ?_, fun _ => ⟨rfl, rfl⟩,
      fun hne => absurd hk hne⟩
    all_goals simp only [client.command, hout, if_true, hk, hb]
  · refine ⟨cl._handler, map_insert cl._subscribe_handler key h, ?_, ?_, ?_,
      fun he => absurd he hk, fun _ hnew => ⟨rfl, map_find_insert_new _ _ _ hnew⟩⟩
    all_goals simp only [client.command, hout, if_true, hk, if_false, hb]

theorem command_output_framing_witness :
    ({} : client)._output = true ∧
    ∃ pending subs,
      (({} : client).command [bytes "SET", [13, 10, 0], []] 5 []).trace = ({} : client).trace ++
        [event.output
          (42 :: (decimal [bytes "SET", [13, 10, 0], []].length ++ ([13, 10] ++
            ([bytes "SET", [13, 10, 0], []].map
              fun a => 36 :: (decimal a.length ++ ([13, 10] ++ (a ++ [13, 10])))).flatten)))
          pending subs] ∧
      pending = (({} : client).command [bytes "SET", [13, 10, 0], []] 5 [])._handler ∧
      subs = (({} : client).command [bytes "SET", [13, 10, 0], []] 5 [])._subscribe_handler ∧
      (([] : List Nat) = [] →
        pending = ({} : client)._handler ++ [5] ∧ subs = ({} : client)._subscribe_handler) ∧
      (([] : List Nat) ≠ [] → map_find ({} : client)._subscribe_handler [] = none →
        pending = ({} : client)._handler ∧ map_find subs [] = some 5) :=
  ⟨rfl, command_output_framing {} [bytes "SET", [13, 10, 0], []] 5 [] rfl⟩
theorem chunk_switch_states {state : state_t} {c : Nat} {rest : List Nat} {p : parser}
    (hp : p._states = []) :
    (∀ r p1, chunk_switch state c rest p = .ret r p1 → p1._states = []) ∧
    (∀ state1 r p1, chunk_switch state c rest p = .go state1 r p1 → p1._states = []) := by
  constructor
  · intro r p1 h
    cases state <;> simp only [chunk_switch, fail, clear_states] at h
    all_goals (try split_ifs at h)
    all_goals (try (simp only [step_t.ret.injEq, reduceCtorEq] at h))
    all_goals (try (obtain ⟨_, rfl⟩ := h))
    all_goals (try exact hp)
    all_goals (try rfl)
  · intro state1 r p1 h
    cases state <;> simp only [chunk_switch, fail, clear_states] at h
    all_goals (try split_ifs at h)
    all_goals (try (simp only [step_t.go.injEq, reduceCtorEq] at h))
    all_goals (try (obtain ⟨_, _, rfl⟩ := h))
    all_goals (try exact hp)

theorem array_complete_states (p : parser) : (array_complete p)._states = p._states := by
  unfold array_complete
  split_ifs <;> rfl

/-- A run that starts with an empty resume stack and ends in `Error` leaves the
resume stack empty. -/
theorem run_error_states (state : state_t) (rest : List Nat) (p : parser)
    (hp : p._states = []) (herr : (run state rest p).2.1 = .Error) :
    (run state rest p).2.2._states = [] := by
  obtain ⟨n, hn⟩ : ∃ n, loop_measure state rest = n := ⟨_, rfl⟩
  induction n using Nat.strong_induction_on generalizing state rest p with
  | _ n ih =>
    cases rest with
    | nil => exact absurd herr (run_nil_not_error state p)
    | cons c rest =>
      rw [run_cons] at herr ⊢
      cases hs : chunk_switch state c rest p with
      | ret rest1 p1 => exact (chunk_switch_states hp).1 _ _ hs
      | throw rest1 p1 => rw [hs] at herr; simp at herr
      | go state1 rest1 p1 =>
        have hm := chunk_switch_measure hs
        have hp1 := (chunk_switch_states hp).2 _ _ _ hs
        rw [hs] at herr
        simp only at herr ⊢
        split_ifs at herr ⊢ with h1 h2
        · simp [chunk_exit, h1, h2] at herr
        · exact ih _ (hn ▸ hm) _ _ _ (by rw [array_complete_states]; exact hp1) herr rfl
        · exact ih _ (hn ▸ hm) _ _ _ hp1 herr rfl

theorem chunk_entry_states (p : parser) (hd : p._states.length ≤ 1) :
    (chunk_entry p).2._states = [] := by
  unfold chunk_entry
  cases h : p._states with
  | nil => simpa using h
  | cons s below =>
    rw [h] at hd
    simp only [List.length_cons] at hd
    have : below = [] := List.length_eq_zero.mp (by omega)
    simp [this]

theorem chunk_error_states (p : parser) (input : List Nat) (hd : p._states.length ≤ 1)
    (herr : (chunk p input).1.2 = .Error) : (chunk p input).2._states = [] := by
  rw [chunk_eq_run] at herr ⊢
  exact run_error_states _ _ _ (chunk_entry_states p hd) herr

theorem chunk_bad_intro (p : parser) (hp : p._states = []) (c : Nat) (rest : List Nat)
    (h1 : c ≠ 43) (h2 : c ≠ 45) (h3 : c ≠ 58) (h4 : c ≠ 36) (h5 : c ≠ 42) :
    (chunk p (c :: rest)).1 = (1, .Error) := by
  have hs : chunk_switch .Start c rest p = .ret rest { p with _buf := [] } := by
    simp [chunk_switch, h1, h2, h3, h4, h5]
  rw [chunk_eq_run, chunk_entry_idle p hp, run_ret hs]
  simp

/-- C7 (as amended): an `Error` return does not poison the parser.  On a parser
whose resume stack has depth at most 1 (as on every parser reached from a new
one), a call that returns `Error` leaves the resume stack empty, so the next
call starts in state `Start`; that next call returns `Error` again, after one
byte, when its first byte is not one of `+ - : $ *`. -/
theorem parse_after_error (p : parser) (input : List Nat) (hd : p._states.length ≤ 1)
    (herr : (parse p input).1.2 = .Error) :
    (parse p input).2._states = [] ∧
      ∀ (c : Nat) (rest : List Nat), c ≠ 43 → c ≠ 45 → c ≠ 58 → c ≠ 36 → c ≠ 42 →
        (parse (parse p input).2 (c :: rest)).1 = (1, .Error) :=
  ⟨chunk_error_states p input hd herr,
    fun c rest h1 h2 h3 h4 h5 =>
      chunk_bad_intro _ (chunk_error_states p input hd herr) c rest h1 h2 h3 h4 h5⟩

theorem parse_after_error_witness :
    ((({} : parser)._states.length ≤ 1) ∧ (parse {} (bytes "$3\r\nabcX")).1.2 = .Error) ∧
    ((parse {} (bytes "$3\r\nabcX")).2._states = [] ∧
      ∀ (c : Nat) (rest : List Nat), c ≠ 43 → c ≠ 45 → c ≠ 58 → c ≠ 36 → c ≠ 42 →
        (parse (parse {} (bytes "$3\r\nabcX")).2 (c :: rest)).1 = (1, .Error)) :=
  ⟨⟨by decide, by decide⟩, parse_after_error {} (bytes "$3\r\nabcX") (by decide) (by decide)⟩

/-- C7 (counterexample): after a call that returned `Error`, a later call on the
same parser returns `Completed`. -/
theorem parse_error_not_poisoned :
    (parse {} (bytes "x")).1.2 = .Error ∧
      (parse (parse {} (bytes "x")).2 (bytes "+OK\r\n")).1 = (5, .Completed) ∧
      (parse (parse {} (bytes "x")).2 (bytes "+OK\r\n")).2.result
        = value.string 0 (bytes "OK") := by
  refine ⟨by decide, by decide, rfl⟩

theorem chunk_switch_go_start {state : state_t} {c : Nat} {rest : List Nat} {p : parser}
    {r : List Nat} {p1 : parser} (h : chunk_switch state c rest p = .go .Start r p1) :
    r = rest := by
  cases state <;> simp only [chunk_switch, fail] at h
  all_goals (try split_ifs at h)
  all_goals (try (simp only [step_t.go.injEq, reduceCtorEq, false_and] at h))
  all_goals (try exact h.2.1.symm)

/-- A run on unread bytes that ends in `Completed` has read at least one byte. -/
theorem run_completed_progress (state : state_t) (c : Nat) (rest : List Nat) (p : parser)
    (hc : (run state (c :: rest) p).2.1 = .Completed) :
    (run state (c :: rest) p).1.length ≤ rest.length := by
  obtain ⟨n, hn⟩ : ∃ n, loop_measure state (c :: rest) = n := ⟨_, rfl⟩
  induction n using Nat.strong_induction_on generalizing state c rest p with
  | _ n ih =>
    rw [run_cons] at hc ⊢
    cases hs : chunk_switch state c rest p with
    | ret rest1 p1 => rw [hs] at hc; simp at hc
    | throw rest1 p1 => rw [hs] at hc; simp at hc
    | go state1 rest1 p1 =>
      have hm := chunk_switch_measure hs
      rw [hs] at hc
      simp only at hc ⊢
      by_cases h1 : state1 = .Start
      · subst h1
        have hr := chunk_switch_go_start hs
        subst hr
        simp only [if_true] at hc ⊢
        split_ifs with h2
        · rw [chunk_exit_rest]
        · exact run_rest_length_le _ _ _
      · simp only [h1, if_false] at hc ⊢
        cases rest1 with
        | nil => exact le_trans (run_rest_length_le _ _ _) (by simp)
        | cons c1 r1 =>
          have h3 := ih _ (hn ▸ hm) _ _ _ _ hc rfl
          have h4 : (c1 :: r1).length ≤ (c :: rest).length := by
            have hb := loop_measure_le state (c :: rest)
            simp only [loop_measure] at hm hb ⊢
            split_ifs at hm <;> omega
          simp only [List.length_cons] at h4
          omega

theorem chunk_completed_progress (p : parser) (c : Nat) (rest : List Nat)
    (hc : (chunk p (c :: rest)).1.2 = .Completed) : 1 ≤ (chunk p (c :: rest)).1.1 := by
  rw [chunk_eq_run] at hc ⊢
  have h := run_completed_progress _ c rest _ hc
  simp only [List.length_cons]
  omega

/-- The iteration bound of `input_loop` is irrelevant once it is at least the
number of unread bytes. -/
theorem input_loop_fuel (f1 f2 : Nat) (cl : client) (rest : List Nat)
    (h1 : rest.length ≤ f1) (h2 : rest.length ≤ f2) :
    input_loop f1 cl rest = input_loop f2 cl rest := by
  induction f1 generalizing f2 cl rest with
  | zero =>
    have : rest = [] := List.length_eq_zero.mp (by omega)
    subst this
    cases f2 <;> rfl
  | succ f1 ih =>
    cases rest with
    | nil => cases f2 <;> rfl
    | cons c rest =>
      cases f2 with
      | zero => simp at h2
      | succ f2 =>
        simp only [input_loop]
        cases hr : (parse cl.parser_ (c :: rest)).1.2 with
        | Completed =>
          simp only
          cases consume_message { cl with parser_ := (parse cl.parser_ (c :: rest)).2 }
              (parse cl.parser_ (c :: rest)).2.result with
          | error f => rfl
          | ok cl2 =>
            have hp := chunk_completed_progress cl.parser_ c rest hr
            simp only [List.length_cons] at h1 h2
            apply ih <;> simp only [List.length_drop, List.length_cons, parse] <;> omega
        | Incompleted => rfl
        | Error => rfl
        | length_error => rfl
theorem all_printable {t : List Nat}
    (h : (t.all fun c => decide (32 ≤ c) && decide (c ≤ 126)) = true) :
    ∀ c ∈ t, 32 ≤ c ∧ c ≤ 126 := by
  intro c hc
  have := List.all_eq_true.mp h c hc
  simpa using this

/-- The loop of `chunk` reads the frame of a reply from the top of a value, up
to the point where its value is completed. -/
theorem run_reply (r : reply) (hr : r.valid = true) (R : List Nat) (p : parser) :
    ∃ buf bs, run .Start (r.wire ++ R) p
      = after_value R { p with _buf := buf, _bulk_size := bs, _value := r.value } := by
  cases r with
  | status t =>
    refine ⟨t, p._bulk_size, ?_⟩
    have h := run_status .Start (Or.inl rfl) t (all_printable hr) R p
    simpa [reply.wire, reply.value] using h
  | error t =>
    refine ⟨t, p._bulk_size, ?_⟩
    have h := run_error .Start (Or.inl rfl) t (all_printable hr) R p
    simpa [reply.wire, reply.value] using h
  | integer i =>
    simp only [reply.valid, Bool.and_eq_true, decide_eq_true_eq] at hr
    refine ⟨[], p._bulk_size, ?_⟩
    have h := run_int .Start (Or.inl rfl) (decimal_int i) (decimal_int_digits_or i)
      (decimal_int_ne_nil i) R p
    rw [to_long_decimal_int i hr.1 hr.2] at h
    simpa [reply.wire, reply.value] using h
  | bulk s =>
    simp only [reply.valid, decide_eq_true_eq] at hr
    exact ⟨s, 0, run_bulk .Start (Or.inl rfl) s hr R p⟩
  | nil => exact ⟨[], to_size_t (-1), run_null .Start (Or.inl rfl) R p⟩

theorem reply_wire_ne_nil (r : reply) : r.wire ≠ [] := by
  cases r <;> simp [reply.wire]

theorem reply_value_not_array (r : reply) (cl : client) :
    consume_message cl r.value = deliver cl r.value := by
  cases r <;> rfl

/-- One iteration of the loop of `input` on the frame of a reply: the reply goes
to the head of the pending queue. -/
theorem input_loop_reply (fuel : Nat) (cl : client) (r : reply) (hr : r.valid = true)
    (R : List Nat) (h : Nat) (hs : List Nat)
    (hst : cl.parser_._states = []) (hsz : cl.parser_._array_sizes = [])
    (hq : cl._handler = h :: hs) :
    ∃ q : parser, q._states = [] ∧ q._array_sizes = [] ∧
      input_loop (fuel + 1) cl (r.wire ++ R)
        = input_loop fuel
            { cl with parser_ := q, _handler := hs,
                      trace := cl.trace ++ [event.call h r.value] } R := by
  obtain ⟨buf, bs, hrun⟩ := run_reply r hr R cl.parser_
  have hc := chunk_of_after_value cl.parser_ r.wire R
    { cl.parser_ with _buf := buf, _bulk_size := bs, _value := r.value } hst hsz hrun
  refine ⟨{ cl.parser_ with _buf := buf, _bulk_size := bs, _value := r.value }, hst, hsz, ?_⟩
  obtain ⟨c, w, hw⟩ := List.exists_cons_of_ne_nil (reply_wire_ne_nil r)
  have e : r.wire ++ R = c :: (w ++ R) := by rw [hw]; rfl
  rw [e] at hc
  have hlen : r.wire.length = w.length + 1 := by rw [hw]; rfl
  rw [e]
  simp only [input_loop, parse, hc, parser.result, reply_value_not_array, deliver, hq]
  rw [hlen]
  simp
/-- The loop of `input` on the frames of replies, one after the other: every
reply goes to the next handler of the pending queue. -/
theorem input_loop_replies (rs : List reply) (hs extra : List Nat) (cl : client) (fuel : Nat)
    (hv : ∀ r ∈ rs, r.valid = true) (hlen : hs.length = rs.length)
    (hq : cl._handler = hs ++ extra)
    (hst : cl.parser_._states = []) (hsz : cl.parser_._array_sizes = [])
    (hf : (rs.map reply.wire).flatten.length ≤ fuel) :
    ∃ cl1, input_loop fuel cl (rs.map reply.wire).flatten = .ok ([], cl1) ∧
      cl1._handler = extra ∧
      cl1.trace = cl.trace ++ List.zipWith (fun h r => event.call h r.value) hs rs ∧
      cl1.parser_._states = [] ∧ cl1.parser_._array_sizes = [] := by
  induction rs generalizing hs cl fuel with
  | nil =>
    have : hs = [] := List.length_eq_zero.mp hlen
    subst this
    refine ⟨cl, ?_, by simpa using hq, by simp, hst, hsz⟩
    cases fuel <;> rfl
  | cons r rs ih =>
    cases hs with
    | nil => simp at hlen
    | cons h hs =>
      have hne := reply_wire_ne_nil r
      have hpos : 0 < r.wire.length := List.length_pos.mpr hne
      simp only [List.map_cons, List.flatten_cons, List.length_append] at hf ⊢
      obtain ⟨fuel1, rfl⟩ : ∃ k, fuel = k + 1 := ⟨fuel - 1, by omega⟩
      obtain ⟨q, hq1, hq2, hstep⟩ := input_loop_reply fuel1 cl r (hv r (by simp))
        (rs.map reply.wire).flatten h (hs ++ extra) hst hsz (by simpa using hq)
      rw [hstep]
      obtain ⟨cl1, i1, i2, i3, i4, i5⟩ := ih hs
        { cl with parser_ := q, _handler := hs ++ extra,
                  trace := cl.trace ++ [event.call h r.value] } fuel1
        (fun x hx => hv x (by simp [hx])) (by simpa using hlen) rfl hq1 hq2 (by omega)
      exact ⟨cl1, i1, i2, by simp [i3], i4, i5⟩

theorem calls_append (a b : List event) : calls (a ++ b) = calls a ++ calls b := by
  induction a with
  | nil => rfl
  | cons e a ih => cases e <;> simp [calls, ih]

theorem calls_zipWith (hs : List Nat) (rs : List reply) :
    calls (List.zipWith (fun h r => event.call h r.value) hs rs)
      = List.zipWith (fun h r => (h, r.value)) hs rs := by
  induction hs generalizing rs with
  | nil => simp [calls]
  | cons h hs ih =>
    cases rs with
    | nil => simp [calls]
    | cons r rs => simp [calls, ih]

theorem command_fold (cmds : List (List (List Nat) × Nat)) (cl : client)
    (hout : cl._output = true) :
    (cmds.foldl (fun cl c => cl.command c.1 c.2 []) cl)._handler
        = cl._handler ++ cmds.map Prod.snd ∧
      (cmds.foldl (fun cl c => cl.command c.1 c.2 []) cl).parser_ = cl.parser_ ∧
      calls (cmds.foldl (fun cl c => cl.command c.1 c.2 []) cl).trace = calls cl.trace := by
  induction cmds generalizing cl with
  | nil => simp
  | cons c cmds ih =>
    simp only [List.foldl_cons, List.map_cons]
    have hc : (cl.command c.1 c.2 [])._output = true := by
      simp [client.command, hout]
    obtain ⟨i1, i2, i3⟩ := ih (cl.command c.1 c.2 []) hc
    rw [i1, i2, i3]
    simp [client.command, hout, calls_append, calls]

/-- The function `input` on the frame of one reply. -/
theorem input_reply (cl : client) (r : reply) (hr : r.valid = true) (h : Nat) (hs : List Nat)
    (hq : cl._handler = h :: hs)
    (hst : cl.parser_._states = []) (hsz : cl.parser_._array_sizes = []) :
    ∃ cl1, cl.input r.wire = .ok (r.wire.length, cl1) ∧ cl1._handler = hs ∧
      cl1.trace = cl.trace ++ [event.call h r.value] ∧
      cl1.parser_._states = [] ∧ cl1.parser_._array_sizes = [] := by
  obtain ⟨cl1, i1, i2, i3, i4, i5⟩ := input_loop_replies [r] [h] hs cl r.wire.length
    (by simpa using hr) rfl (by simpa using hq) hst hsz (by simp)
  simp only [List.map_cons, List.map_nil, List.flatten_cons, List.flatten_nil,
    List.append_nil] at i1
  refine ⟨cl1, ?_, i2, by simpa using i3, i4, i5⟩
  unfold client.input
  rw [i1]
  simp

/-- Successive calls of `input`, one per reply. -/
theorem input_all_replies (rs : List reply) (hs extra : List Nat) (cl : client)
    (hv : ∀ r ∈ rs, r.valid = true) (hlen : hs.length = rs.length)
    (hq : cl._handler = hs ++ extra)
    (hst : cl.parser_._states = []) (hsz : cl.parser_._array_sizes = []) :
    ∃ cl1, input_all cl (rs.map reply.wire)
        = .ok ((rs.map reply.wire).map List.length, cl1) ∧
      cl1._handler = extra ∧
      cl1.trace = cl.trace ++ List.zipWith (fun h r => event.call h r.value) hs rs := by
  induction rs generalizing hs cl with
  | nil =>
    have : hs = [] := List.length_eq_zero.mp hlen
    subst this
    exact ⟨cl, rfl, by simpa using hq, by simp⟩
  | cons r rs ih =>
    cases hs with
    | nil => simp at hlen
    | cons h hs =>
      obtain ⟨cl1, j1, j2, j3, j4, j5⟩ := input_reply cl r (hv r (by simp)) h (hs ++ extra)
        (by simpa using hq) hst hsz
      obtain ⟨cl2, i1, i2, i3⟩ := ih hs cl1 (fun x hx => hv x (by simp [hx]))
        (by simpa using hlen) j2 j4 j5
      refine ⟨cl2, ?_, i2, by simp [i3, j3]⟩
      simp [input_all, j1, i1]

/-- C5: FIFO correlation.  After `N` calls of `command` without subscribe key on
a new client (handlers `h1 .. hN`), feeding the frames of `N` non-array replies
`r1 .. rN` in order, all in one call of `input` or one reply per call, consumes
every byte, makes exactly `N` calls of handlers, the `i`-th being `hi` with the
value of `ri`, and leaves the pending queue empty. -/
theorem input_fifo (cmds : List (List (List Nat) × Nat)) (rs : List reply)
    (hlen : rs.length = cmds.length) (hv : ∀ r ∈ rs, r.valid = true) :
    (∃ cl1, (send_all cmds).input (rs.map reply.wire).flatten
          = .ok ((rs.map reply.wire).flatten.length, cl1) ∧
        calls cl1.trace = List.zipWith (fun c r => (c.2, r.value)) cmds rs ∧
        cl1._handler = []) ∧
      (∃ cl2, input_all (send_all cmds) (rs.map reply.wire)
          = .ok ((rs.map reply.wire).map List.length, cl2) ∧
        calls cl2.trace = List.zipWith (fun c r => (c.2, r.value)) cmds rs ∧
        cl2._handler = []) := by
  obtain ⟨s1, s2, s3⟩ := command_fold cmds {} rfl
  have hq : (send_all cmds)._handler = cmds.map Prod.snd ++ [] := by
    simpa [send_all] using s1
  have hp : (send_all cmds).parser_ = {} := s2
  have ht : calls (send_all cmds).trace = [] := s3
  have hz : List.zipWith (fun h r => (h, reply.value r)) (cmds.map Prod.snd) rs
      = List.zipWith (fun c r => (c.2, r.value)) cmds rs := by
    rw [List.zipWith_map_left]
  constructor
  · obtain ⟨cl1, i1, i2, i3, _, _⟩ := input_loop_replies rs (cmds.map Prod.snd) []
      (send_all cmds) (rs.map reply.wire).flatten.length hv (by simp [hlen]) hq
      (by rw [hp]) (by rw [hp]) (le_refl _)
    refine ⟨cl1, by unfold client.input; rw [i1]; simp, ?_, i2⟩
    rw [i3, calls_append, ht, calls_zipWith, hz]
    rfl
  · obtain ⟨cl2, i1, i2, i3⟩ := input_all_replies rs (cmds.map Prod.snd) []
      (send_all cmds) hv (by simp [hlen]) hq (by rw [hp]) (by rw [hp])
    refine ⟨cl2, i1, ?_, i2⟩
    rw [i3, calls_append, ht, calls_zipWith, hz]
    rfl

theorem input_fifo_witness :
    ([reply.status (bytes "PONG"), reply.bulk [13, 10, 0], reply.error (bytes "ERR x"),
        reply.integer (-3), reply.nil].length
        = [([bytes "PING"], 11), ([bytes "GET", bytes "k"], 12), ([bytes "BAD"], 13),
            ([bytes "DEL", bytes "k"], 14), ([bytes "GET", bytes "k"], 15)].length ∧
      ∀ r ∈ [reply.status (bytes "PONG"), reply.bulk [13, 10, 0], reply.error (bytes "ERR x"),
        reply.integer (-3), reply.nil], r.valid = true) ∧
    ((∃ cl1, (send_all [([bytes "PING"], 11), ([bytes "GET", bytes "k"], 12), ([bytes "BAD"], 13),
            ([bytes "DEL", bytes "k"], 14), ([bytes "GET", bytes "k"], 15)]).input
          ([reply.status (bytes "PONG"), reply.bulk [13, 10, 0], reply.error (bytes "ERR x"),
            reply.integer (-3), reply.nil].map reply.wire).flatten
          = .ok (([reply.status (bytes "PONG"), reply.bulk [13, 10, 0],
            reply.error (bytes "ERR x"), reply.integer (-3), reply.nil].map
              reply.wire).flatten.length, cl1) ∧
        calls cl1.trace = List.zipWith (fun c r => (c.2, r.value))
          [([bytes "PING"], 11), ([bytes "GET", bytes "k"], 12), ([bytes "BAD"], 13),
            ([bytes "DEL", bytes "k"], 14), ([bytes "GET", bytes "k"], 15)]
          [reply.status (bytes "PONG"), reply.bulk [13, 10, 0], reply.error (bytes "ERR x"),
            reply.integer (-3), reply.nil] ∧
        cl1._handler = []) ∧
      (∃ cl2, input_all (send_all [([bytes "PING"], 11), ([bytes "GET", bytes "k"], 12),
            ([bytes "BAD"], 13), ([bytes "DEL", bytes "k"], 14), ([bytes "GET", bytes "k"], 15)])
          ([reply.status (bytes "PONG"), reply.bulk [13, 10, 0], reply.error (bytes "ERR x"),
            reply.integer (-3), reply.nil].map reply.wire)
          = .ok (([reply.status (bytes "PONG"), reply.bulk [13, 10, 0],
            reply.error (bytes "ERR x"), reply.integer (-3), reply.nil].map reply.wire).map
              List.length, cl2) ∧
        calls cl2.trace = List.zipWith (fun c r => (c.2, r.value))
          [([bytes "PING"], 11), ([bytes "GET", bytes "k"], 12), ([bytes "BAD"], 13),
            ([bytes "DEL", bytes "k"], 14), ([bytes "GET", bytes "k"], 15)]
          [reply.status (bytes "PONG"), reply.bulk [13, 10, 0], reply.error (bytes "ERR x"),
            reply.integer (-3), reply.nil] ∧
        cl2._handler = [])) :=
  ⟨⟨rfl, by decide⟩, input_fifo _ _ rfl (by decide)⟩
/-- An array whose first element is a string other than `message` and
`subscribe` goes to the head of the pending queue. -/
theorem consume_message_other (cl : client) (e e0 : Int) (cmd : List Nat) (tail : List value)
    (h : Nat) (hs : List Nat) (hm : cmd ≠ bytes "message") (hsub : cmd ≠ bytes "subscribe")
    (hq : cl._handler = h :: hs) :
    consume_message cl (value.array e (value.string e0 cmd :: tail))
      = .ok { cl with _handler := hs,
                      trace := cl.trace ++
                        [event.call h (value.array e (value.string e0 cmd :: tail))] } := by
  simp [consume_message, value.get_string, hm, hsub, deliver, hq]

/-- C12 (the code at the failing inputs): with one pending handler, dispatching
the empty array reads element 0 of an empty vector, dispatching an array whose
first element is nil, an integer or an array throws in `get_string`, a
`message` array of one element reads element 1 past the end, a `message` array
of two elements with an unknown channel returns without a call and with the
queue as it was, and a `message` array of four elements is handled as a push
frame; `input` on the reply `*0` ends in the first of these. -/
theorem consume_message_array_faults :
    consume_message { _handler := [7] } (value.array 0 []) = .error .index_out_of_range ∧
      consume_message { _handler := [7] } (value.array 0 [value.null 0])
        = .error .bad_variant_access ∧
      consume_message { _handler := [7] } (value.array 0 [value.int 0 1])
        = .error .bad_variant_access ∧
      consume_message { _handler := [7] } (value.array 0 [value.array 0 []])
        = .error .bad_variant_access ∧
      consume_message { _handler := [7] } (value.array 0 [value.string 0 (bytes "message")])
        = .error .index_out_of_range ∧
      consume_message { _handler := [7] }
          (value.array 0 [value.string 0 (bytes "message"), value.string 0 (bytes "ch")])
        = .ok { _handler := [7] } ∧
      consume_message { _handler := [7], _subscribe_handler := [(bytes "ch", 3)] }
          (value.array 0 [value.string 0 (bytes "message"), value.string 0 (bytes "ch"),
            value.string 0 (bytes "p"), value.string 0 (bytes "q")])
        = .ok { _handler := [7], _subscribe_handler := [(bytes "ch", 3)],
                trace := [event.call 3 (value.string 0 (bytes "p"))] } ∧
      ({ _handler := [7] } : client).input (bytes "*0\r\n") = .error .index_out_of_range := by
  refine ⟨rfl, rfl, rfl, rfl, rfl, rfl, rfl, rfl⟩

/-- C17: a subscribe acknowledgement is discarded.  For every client,
dispatching an array whose first element is the string `subscribe` calls no
handler and leaves the pending queue, the subscription map and everything else
as they are. -/
theorem consume_message_subscribe_ack (cl : client) (e e0 : Int) (tail : List value) :
    consume_message cl (value.array e (value.string e0 (bytes "subscribe") :: tail))
      = .ok cl := by
  have h : bytes "subscribe" ≠ bytes "message" := by decide
  simp [consume_message, value.get_string, h]

/-- C18 (as amended): an unsubscribe acknowledgement is a normal reply.  For
every client with a non-empty pending queue, dispatching an array whose first
element is the string `unsubscribe` pops the head of the queue and calls it
with the array; the subscription map stays as it is. -/
theorem consume_message_unsubscribe_ack (cl : client) (e e0 : Int) (tail : List value)
    (h : Nat) (hs : List Nat) (hq : cl._handler = h :: hs) :
    consume_message cl (value.array e (value.string e0 (bytes "unsubscribe") :: tail))
      = .ok { cl with _handler := hs,
                      trace := cl.trace ++ [event.call h
                        (value.array e (value.string e0 (bytes "unsubscribe") :: tail))] } :=
  consume_message_other cl e e0 (bytes "unsubscribe") tail h hs (by decide) (by decide) hq

theorem consume_message_unsubscribe_ack_witness :
    ({ _handler := [7, 8], _subscribe_handler := [(bytes "ch", 3)] } : client)._handler
        = 7 :: [8] ∧
    consume_message { _handler := [7, 8], _subscribe_handler := [(bytes "ch", 3)] }
        (value.array 0 (value.string 0 (bytes "unsubscribe")
          :: [value.string 0 (bytes "ch"), value.int 0 0]))
      = .ok { ({ _handler := [7, 8], _subscribe_handler := [(bytes "ch", 3)] } : client) with
              _handler := [8],
              trace := ({ _handler := [7, 8], _subscribe_handler := [(bytes "ch", 3)] }
                  : client).trace ++ [event.call 7
                (value.array 0 (value.string 0 (bytes "unsubscribe")
                  :: [value.string 0 (bytes "ch"), value.int 0 0]))] } :=
  ⟨rfl, consume_message_unsubscribe_ack _ 0 0 _ 7 [8] rfl⟩

/-- C18 (counterexample): dispatching the acknowledgement
`["unsubscribe", "ch", 0]` on a client with the pending handlers 7 and 8 calls
handler 7 with it and removes it from the queue. -/
theorem unsubscribe_ack_pops_queue :
    consume_message { _handler := [7, 8], _subscribe_handler := [(bytes "ch", 3)] }
        (value.array 0 [value.string 0 (bytes "unsubscribe"), value.string 0 (bytes "ch"),
          value.int 0 0])
      = .ok { _handler := [8], _subscribe_handler := [(bytes "ch", 3)],
              trace := [event.call 7 (value.array 0 [value.string 0 (bytes "unsubscribe"),
                value.string 0 (bytes "ch"), value.int 0 0])] } := rfl
/-- C13 (the code at the failing inputs): a `-` that is alone or not in front is
accepted in the header of every frame.  `:1-2` completes as the integer 72,
`:-` as the integer 0, `:--5` as the integer 25, `*-` as the empty array, `$-`
as the empty bulk and `$1-2` asks for a bulk of 72 bytes; the empty run, a plus
sign, a blank and a letter give `Error`. -/
theorem header_minus_accepted :
    (parse {} (bytes ":1-2\r\n")).1 = (6, .Completed) ∧
      (parse {} (bytes ":1-2\r\n")).2.result = value.int 0 72 ∧
      (parse {} (bytes ":-\r\n")).1 = (4, .Completed) ∧
      (parse {} (bytes ":-\r\n")).2.result = value.int 0 0 ∧
      (parse {} (bytes ":--5\r\n")).1 = (6, .Completed) ∧
      (parse {} (bytes ":--5\r\n")).2.result = value.int 0 25 ∧
      (parse {} (bytes "*-\r\n")).1 = (4, .Completed) ∧
      (parse {} (bytes "*-\r\n")).2.result = value.array 0 [] ∧
      (parse {} (bytes "$-\r\n\r\n")).1 = (6, .Completed) ∧
      (parse {} (bytes "$-\r\n\r\n")).2.result = value.string 0 [] ∧
      (parse {} (bytes "$1-2\r\n")).1 = (6, .Incompleted) ∧
      (parse {} (bytes "$1-2\r\n")).2._bulk_size = 72 ∧
      (parse {} (bytes ":\r\n")).1 = (2, .Error) ∧
      (parse {} (bytes "$\r\n")).1 = (2, .Error) ∧
      (parse {} (bytes "*\r\n")).1 = (2, .Error) ∧
      (parse {} (bytes ":+1\r\n")).1 = (2, .Error) ∧
      (parse {} (bytes ": 1\r\n")).1 = (2, .Error) ∧
      (parse {} (bytes ":a\r\n")).1 = (2, .Error) := by
  refine ⟨by decide, rfl, by decide, rfl, by decide, rfl, by decide, rfl, by decide, rfl,
    by decide, by decide, by decide, by decide, by decide, by decide, by decide, by decide⟩

set_option maxRecDepth 10000 in
/-- C14 (counterexample): the array header and the bulk header with the length
18446744073709551615, which does not fit 64 bits, complete as nil; the headers
with 18446744073709551616 give the empty array and ask for an empty bulk, and
the bulk header with 18446744073709551617 asks for one byte. -/
theorem length_overflow_wraps :
    (parse {} (bytes "*18446744073709551615\r\n")).1 = (23, .Completed) ∧
      (parse {} (bytes "*18446744073709551615\r\n")).2.result = value.null 0 ∧
      (parse {} (bytes "$18446744073709551615\r\n")).1 = (23, .Completed) ∧
      (parse {} (bytes "$18446744073709551615\r\n")).2.result = value.null 0 ∧
      (parse {} (bytes "*18446744073709551616\r\n")).1 = (23, .Completed) ∧
      (parse {} (bytes "*18446744073709551616\r\n")).2.result = value.array 0 [] ∧
      (parse {} (bytes "$18446744073709551616\r\n\r\n")).1 = (25, .Completed) ∧
      (parse {} (bytes "$18446744073709551616\r\n\r\n")).2.result = value.string 0 [] ∧
      (parse {} (bytes "$18446744073709551617\r\nA\r\n")).1 = (26, .Completed) ∧
      (parse {} (bytes "$18446744073709551617\r\nA\r\n")).2.result = value.string 0 [65] := by
  refine ⟨rfl, rfl, rfl, rfl, rfl, rfl, rfl, rfl, rfl, rfl⟩
theorem digits_foldl (ds : List Nat) (hd : ∀ c ∈ ds, isdigit c = true) (v : Nat) :
    ds.foldl (fun (x : Int) c => x * 10 + (char_to_int c - 48)) (v : Int)
      = ((ds.foldl (fun x c => x * 10 + (c - 48)) v : Nat) : Int) := by
  induction ds generalizing v with
  | nil => rfl
  | cons c ds ih =>
    have hc := hd c (by simp)
    simp only [isdigit, Bool.and_eq_true, decide_eq_true_eq] at hc
    have e : (v : Int) * 10 + (char_to_int c - 48) = ((v * 10 + (c - 48) : Nat) : Int) := by
      have hlt : c < 128 := by omega
      unfold char_to_int
      rw [if_pos hlt]
      push_cast
      omega
    simp only [List.foldl_cons, e]
    exact ih (fun x hx => hd x (by simp [hx])) _

/-- The helper `to_long` on a run of digits is the number the run denotes,
wrapped to 64 bits. -/
theorem to_long_digits (ds : List Nat) (hne : ds ≠ []) (hd : ∀ c ∈ ds, isdigit c = true) :
    to_long ds = wrap64 (digits_value ds) := by
  obtain ⟨c, r, rfl⟩ := List.exists_cons_of_ne_nil hne
  have hc := hd c (by simp)
  have h45 : c ≠ 45 := by
    intro e; subst e; simp [isdigit] at hc
  have hl := to_long_loop_wrap (c :: r) 0
  rw [wrap64_zero] at hl
  simp only [to_long, h45, if_false]
  rw [hl]
  have := digits_foldl (c :: r) hd 0
  simp only [Nat.cast_zero] at this
  rw [this]
  rfl

theorem to_size_t_wrap64 (n : Nat) : to_size_t (wrap64 n) = n % 2 ^ 64 := by
  unfold to_size_t wrap64
  have h : (Int.bmod (n : Int) (2 ^ 64)) % ((2 ^ 64 : Nat) : Int) = (n : Int) % ((2 ^ 64 : Nat) : Int) :=
    Int.bmod_emod
  norm_num at h ⊢
  rw [h]
  omega

/-- The header of an array up to its CR, read from the top of a value. -/
theorem run_array_size (state : state_t) (hst : state = .Start ∨ state = .StartArray)
    (ds : List Nat) (hds : ∀ c ∈ ds, isdigit c = true ∨ c = 45) (hne : ds ≠ [])
    (R : List Nat) (p : parser) :
    run state (42 :: (ds ++ 13 :: R)) p = run .ArraySizeLF R { p with _buf := ds } := by
  have h1 : chunk_switch state 42 (ds ++ 13 :: R) p
      = .go .ArraySize (ds ++ 13 :: R) { p with _buf := [] } := by
    rcases hst with rfl | rfl <;> rfl
  rw [run_go h1 (by simp), run_digits _ (Or.inr (Or.inr rfl)) ds hds]
  have h2 : chunk_switch .ArraySize 13 R { p with _buf := [] ++ ds }
      = .go .ArraySizeLF R { p with _buf := ds } := by
    simp [chunk_switch, hne]
  rw [run_go h2 (by simp)]

/-- The header of a bulk up to its CR, read from the top of a value. -/
theorem run_bulk_size (state : state_t) (hst : state = .Start ∨ state = .StartArray)
    (ds : List Nat) (hds : ∀ c ∈ ds, isdigit c = true ∨ c = 45) (hne : ds ≠ [])
    (R : List Nat) (p : parser) :
    run state (36 :: (ds ++ 13 :: R)) p
      = run .BulkSizeLF R { p with _buf := ds, _bulk_size := 0 } := by
  have h1 : chunk_switch state 36 (ds ++ 13 :: R) p
      = .go .BulkSize (ds ++ 13 :: R) { p with _buf := [], _bulk_size := 0 } := by
    rcases hst with rfl | rfl <;> rfl
  rw [run_go h1 (by simp), run_digits _ (Or.inr (Or.inl rfl)) ds hds]
  have h2 : chunk_switch .BulkSize 13 R { p with _buf := [] ++ ds, _bulk_size := 0 }
      = .go .BulkSizeLF R { p with _buf := ds, _bulk_size := 0 } := by
    simp [chunk_switch, hne]
  rw [run_go h2 (by simp)]

/-- The header of an integer up to its CR, read from the top of a value. -/
theorem run_integer_size (state : state_t) (hst : state = .Start ∨ state = .StartArray)
    (ds : List Nat) (hds : ∀ c ∈ ds, isdigit c = true ∨ c = 45) (hne : ds ≠ [])
    (R : List Nat) (p : parser) :
    run state (58 :: (ds ++ 13 :: R)) p = run .IntegerLF R { p with _buf := ds } := by
  have h1 : chunk_switch state 58 (ds ++ 13 :: R) p
      = .go .Integer (ds ++ 13 :: R) { p with _buf := [] } := by
    rcases hst with rfl | rfl <;> rfl
  rw [run_go h1 (by simp), run_digits _ (Or.inl rfl) ds hds]
  have h2 : chunk_switch .Integer 13 R { p with _buf := [] ++ ds }
      = .go .IntegerLF R { p with _buf := ds } := by
    simp [chunk_switch, hne]
  rw [run_go h2 (by simp)]
/-- The array header with the digit run `ds`, alone in the input of a new
parser, by the value that `to_long` gives. -/
theorem chunk_array_header (ds : List Nat) (hds : ∀ c ∈ ds, isdigit c = true ∨ c = 45)
    (hne : ds ≠ []) :
    chunk {} (42 :: (ds ++ [13, 10])) =
      if to_long ds = -1 then ((ds.length + 3, .Completed), { _buf := ds, _value := value.null 0 })
      else if to_long ds = 0 then
        ((ds.length + 3, .Completed), { _buf := ds, _value := value.array 0 [] })
      else if to_long ds < 0 then ((ds.length + 3, .Error), { _buf := ds })
      else if vector_max_size < to_size_t (to_long ds) then
        ((ds.length + 3, .length_error), { _buf := ds })
      else ((ds.length + 3, .Incompleted),
        { _buf := ds, _states := [.StartArray], _array_sizes := [to_long ds],
          _array_values := [value.array 0 []] }) := by
  rw [chunk_eq_run, chunk_entry_idle {} rfl]
  have e : (42 :: (ds ++ [13, 10])) = 42 :: (ds ++ 13 :: [10]) := by simp
  rw [e, run_array_size .Start (Or.inl rfl) ds hds hne [10] {}]
  split_ifs with h1 h2 h3 h4
  · have hs : chunk_switch .ArraySizeLF 10 [] { _buf := ds }
        = .go .Start [] { _buf := ds, _value := value.null 0 } := by
      simp [chunk_switch, h1]
    rw [run_go_start hs, after_value_idle _ _ rfl]
    simp
  · have hs : chunk_switch .ArraySizeLF 10 [] { _buf := ds }
        = .go .Start [] { _buf := ds, _value := value.array 0 [] } := by
      simp [chunk_switch, h2]
    rw [run_go_start hs, after_value_idle _ _ rfl]
    simp
  · have hs : chunk_switch .ArraySizeLF 10 [] { _buf := ds }
        = .ret [] { _buf := ds } := by
      simp [chunk_switch, h1, h2, h3, fail, clear_states]
    rw [run_ret hs]
    simp
  · have hs : chunk_switch .ArraySizeLF 10 [] { _buf := ds }
        = .throw [] { _buf := ds } := by
      simp [chunk_switch, h1, h2, h3, h4]
    rw [run_throw hs]
    simp
  · have hs : chunk_switch .ArraySizeLF 10 [] { _buf := ds }
        = .go .StartArray [] { _buf := ds, _array_sizes := [to_long ds],
                               _array_values := [value.array 0 []] } := by
      simp [chunk_switch, h1, h2, h3, h4]
    rw [run_go hs (by simp), run_nil]
    simp [chunk_exit]

/-- The bulk header with the digit run `ds`, alone in the input of a new
parser, by the value that `to_long` gives. -/
theorem chunk_bulk_header (ds : List Nat) (hds : ∀ c ∈ ds, isdigit c = true ∨ c = 45)
    (hne : ds ≠ []) :
    chunk {} (36 :: (ds ++ [13, 10])) =
      if to_size_t (to_long ds) = to_size_t (-1) then
        ((ds.length + 3, .Completed),
          { _buf := [], _bulk_size := to_size_t (to_long ds), _value := value.null 0 })
      else if to_size_t (to_long ds) = 0 then
        ((ds.length + 3, .Incompleted),
          { _buf := [], _bulk_size := 0, _states := [.BulkCR] })
      else if string_max_size < to_size_t (to_long ds) then
        ((ds.length + 3, .length_error),
          { _buf := [], _bulk_size := to_size_t (to_long ds) })
      else ((ds.length + 3, .Incompleted),
        { _buf := [], _bulk_size := to_size_t (to_long ds), _states := [.Bulk] }) := by
  rw [chunk_eq_run, chunk_entry_idle {} rfl]
  have e : (36 :: (ds ++ [13, 10])) = 36 :: (ds ++ 13 :: [10]) := by simp
  rw [e, run_bulk_size .Start (Or.inl rfl) ds hds hne [10] {}]
  split_ifs with h1 h2 h3
  · have hs : chunk_switch .BulkSizeLF 10 [] { _buf := ds, _bulk_size := 0 }
        = .go .Start [] { _buf := [], _bulk_size := to_size_t (to_long ds),
                          _value := value.null 0 } := by
      simp [chunk_switch, h1]
    rw [run_go_start hs, after_value_idle _ _ rfl]
    simp
  · have hx : ¬ ((0 : Nat) = to_size_t (-1)) := by decide
    have hs : chunk_switch .BulkSizeLF 10 [] { _buf := ds, _bulk_size := 0 }
        = .go .BulkCR [] { _buf := [], _bulk_size := 0 } := by
      simp [chunk_switch, h2, hx]
    rw [run_go hs (by simp), run_nil]
    simp [chunk_exit]
  · have hs : chunk_switch .BulkSizeLF 10 [] { _buf := ds, _bulk_size := 0 }
        = .throw [] { _buf := [], _bulk_size := to_size_t (to_long ds) } := by
      simp [chunk_switch, h1, h2, h3]
    rw [run_throw hs]
    simp
  · have hs := chunk_switch_BulkSizeLF [] { _buf := ds, _bulk_size := 0 } h1 h2 h3
    simp only [List.length_nil, Nat.le_zero_eq, h2, if_false, Nat.sub_zero] at hs
    rw [run_go hs (by simp), run_nil]
    simp [chunk_exit]
theorem wrap64_pos_eq (n : Nat) (h : 0 < wrap64 n) :
    ((n % 2 ^ 64 : Nat) : Int) = wrap64 n := by
  unfold wrap64 Int.bmod at *
  norm_num at h ⊢
  split_ifs at h ⊢ <;> omega

/-- C14 (as amended): length overflow is not detected; the header of a bulk or
an array is judged by the number of its digit run wrapped to 64 bits.  For every
non-empty run of digits `ds`: the array header returns `Error` exactly when the
wrapped number is below -1, completes as nil when it is -1 and completes as the
empty array when it is 0; when it is positive the call never returns `Completed`,
it is left by `std::length_error` exactly when the number is above the
`max_size()` of the vector, and when it returns `Incompleted` the parser waits
for that many elements.  The bulk header completes as nil when the number is
`2 ^ 64 - 1` modulo `2 ^ 64` and waits for the end of an empty bulk when it is 0
modulo `2 ^ 64`; when the number modulo `2 ^ 64` is positive and below `2 ^ 63`
the call returns neither `Error` nor `Completed`, it is left by
`std::length_error` exactly when the number is above the `max_size()` of the
string, and when it returns `Incompleted` the parser waits for that many
bytes. -/
theorem header_length_wrapped (ds : List Nat) (hne : ds ≠ [])
    (hd : ∀ c ∈ ds, isdigit c = true) :
    ((parse {} (42 :: (ds ++ [13, 10]))).1.2 = .Error ↔ wrap64 (digits_value ds) < -1) ∧
      (wrap64 (digits_value ds) = -1 →
        (parse {} (42 :: (ds ++ [13, 10]))).1 = (ds.length + 3, .Completed) ∧
        (parse {} (42 :: (ds ++ [13, 10]))).2.result = value.null 0) ∧
      (wrap64 (digits_value ds) = 0 →
        (parse {} (42 :: (ds ++ [13, 10]))).1 = (ds.length + 3, .Completed) ∧
        (parse {} (42 :: (ds ++ [13, 10]))).2.result = value.array 0 []) ∧
      (0 < wrap64 (digits_value ds) →
        (parse {} (42 :: (ds ++ [13, 10]))).1.2 ≠ .Completed ∧
        ((parse {} (42 :: (ds ++ [13, 10]))).1.2 = .length_error ↔
          (vector_max_size : Int) < wrap64 (digits_value ds)) ∧
        ((parse {} (42 :: (ds ++ [13, 10]))).1.2 = .Incompleted →
          (parse {} (42 :: (ds ++ [13, 10]))).1.1 = ds.length + 3 ∧
          (parse {} (42 :: (ds ++ [13, 10]))).2._array_sizes = [wrap64 (digits_value ds)])) ∧
      (digits_value ds % 2 ^ 64 = 2 ^ 64 - 1 →
        (parse {} (36 :: (ds ++ [13, 10]))).1 = (ds.length + 3, .Completed) ∧
        (parse {} (36 :: (ds ++ [13, 10]))).2.result = value.null 0) ∧
      (digits_value ds % 2 ^ 64 = 0 →
        (parse {} (36 :: (ds ++ [13, 10]))).1 = (ds.length + 3, .Incompleted) ∧
        (parse {} (36 :: (ds ++ [13, 10]))).2._bulk_size = 0) ∧
      (0 < digits_value ds % 2 ^ 64 → digits_value ds % 2 ^ 64 < 2 ^ 63 →
        (parse {} (36 :: (ds ++ [13, 10]))).1.2 ≠ .Error ∧
        (parse {} (36 :: (ds ++ [13, 10]))).1.2 ≠ .Completed ∧
        ((parse {} (36 :: (ds ++ [13, 10]))).1.2 = .length_error ↔
          string_max_size < digits_value ds % 2 ^ 64) ∧
        ((parse {} (36 :: (ds ++ [13, 10]))).1.2 = .Incompleted →
          (parse {} (36 :: (ds ++ [13, 10]))).1.1 = ds.length + 3 ∧
          (parse {} (36 :: (ds ++ [13, 10]))).2._bulk_size = digits_value ds % 2 ^ 64)) := by
  have hds : ∀ c ∈ ds, isdigit c = true ∨ c = 45 := fun c hc => Or.inl (hd c hc)
  have ha := chunk_array_header ds hds hne
  have hb := chunk_bulk_header ds hds hne
  have hl := to_long_digits ds hne hd
  have hz : to_size_t (to_long ds) = digits_value ds % 2 ^ 64 := by
    rw [hl, to_size_t_wrap64]
  have hm : to_size_t (-1) = 2 ^ 64 - 1 := by decide
  rw [hz, hm] at hb
  rw [hz, hl] at ha
  have hv := vector_max_size_lt
  unfold parse
  refine ⟨?_, ?_, ?_, ?_, ?_, ?_, ?_⟩
  · rw [ha]
    split_ifs with h1 h2 h3 h4 <;> simp <;> omega
  · intro h
    rw [ha, if_pos h]
    exact ⟨rfl, rfl⟩
  · intro h
    have h1 : ¬ (wrap64 (digits_value ds) = -1) := by omega
    rw [ha, if_neg h1, if_pos h]
    exact ⟨rfl, rfl⟩
  · intro h
    have h1 : ¬ (wrap64 (digits_value ds) = -1) := by omega
    have h2 : ¬ (wrap64 (digits_value ds) = 0) := by omega
    have h3 : ¬ (wrap64 (digits_value ds) < 0) := by omega
    have h5 := wrap64_pos_eq _ h
    rw [ha, if_neg h1, if_neg h2, if_neg h3]
    split_ifs with h4
    · refine ⟨by simp, ⟨fun _ => by omega, fun _ => rfl⟩, fun hc => by simp at hc⟩
    · refine ⟨by simp, ⟨fun hc => by simp at hc, fun hc => by omega⟩, fun _ => ⟨rfl, rfl⟩⟩
  · intro h
    rw [hb, if_pos h]
    exact ⟨rfl, rfl⟩
  · intro h
    have hn : ¬ (digits_value ds % 2 ^ 64 = 2 ^ 64 - 1) := by omega
    rw [hb, if_neg hn, if_pos h]
    exact ⟨rfl, rfl⟩
  · intro h0 h
    have hn : ¬ (digits_value ds % 2 ^ 64 = 2 ^ 64 - 1) := by omega
    have h2 : ¬ (digits_value ds % 2 ^ 64 = 0) := by omega
    rw [hb, if_neg hn, if_neg h2]
    split_ifs with h4
    · refine ⟨by simp, by simp, ⟨fun _ => h4, fun _ => rfl⟩, fun hc => by simp at hc⟩
    · refine ⟨by simp, by simp, ⟨fun hc => by simp at hc, fun hc => absurd hc h4⟩,
        fun _ => ⟨rfl, rfl⟩⟩

set_option maxRecDepth 10000 in
theorem header_length_wrapped_witness :
    (bytes "18446744073709551615" ≠ [] ∧
      ∀ c ∈ bytes "18446744073709551615", isdigit c = true) ∧
    (((parse {} (42 :: (bytes "18446744073709551615" ++ [13, 10]))).1.2 = .Error ↔ wrap64 (digits_value (bytes "18446744073709551615")) < -1) ∧
       (wrap64 (digits_value (bytes "18446744073709551615")) = -1 →
         (parse {} (42 :: (bytes "18446744073709551615" ++ [13, 10]))).1 = ((bytes "18446744073709551615").length + 3, .Completed) ∧
         (parse {} (42 :: (bytes "18446744073709551615" ++ [13, 10]))).2.result = value.null 0) ∧
       (wrap64 (digits_value (bytes "18446744073709551615")) = 0 →
         (parse {} (42 :: (bytes "18446744073709551615" ++ [13, 10]))).1 = ((bytes "18446744073709551615").length + 3, .Completed) ∧
         (parse {} (42 :: (bytes "18446744073709551615" ++ [13, 10]))).2.result = value.array 0 []) ∧
       (0 < wrap64 (digits_value (bytes "18446744073709551615")) →
         (parse {} (42 :: (bytes "18446744073709551615" ++ [13, 10]))).1.2 ≠ .Completed ∧
         ((parse {} (42 :: (bytes "18446744073709551615" ++ [13, 10]))).1.2 = .length_error ↔
           (vector_max_size : Int) < wrap64 (digits_value (bytes "18446744073709551615"))) ∧
         ((parse {} (42 :: (bytes "18446744073709551615" ++ [13, 10]))).1.2 = .Incompleted →
           (parse {} (42 :: (bytes "18446744073709551615" ++ [13, 10]))).1.1 = (bytes "18446744073709551615").length + 3 ∧
           (parse {} (42 :: (bytes "18446744073709551615" ++ [13, 10]))).2._array_sizes = [wrap64 (digits_value (bytes "18446744073709551615"))])) ∧
       (digits_value (bytes "18446744073709551615") % 2 ^ 64 = 2 ^ 64 - 1 →
         (parse {} (36 :: (bytes "18446744073709551615" ++ [13, 10]))).1 = ((bytes "18446744073709551615").length + 3, .Completed) ∧
         (parse {} (36 :: (bytes "18446744073709551615" ++ [13, 10]))).2.result = value.null 0) ∧
       (digits_value (bytes "18446744073709551615") % 2 ^ 64 = 0 →
         (parse {} (36 :: (bytes "18446744073709551615" ++ [13, 10]))).1 = ((bytes "18446744073709551615").length + 3, .Incompleted) ∧
         (parse {} (36 :: (bytes "18446744073709551615" ++ [13, 10]))).2._bulk_size = 0) ∧
       (0 < digits_value (bytes "18446744073709551615") % 2 ^ 64 → digits_value (bytes "18446744073709551615") % 2 ^ 64 < 2 ^ 63 →
         (parse {} (36 :: (bytes "18446744073709551615" ++ [13, 10]))).1.2 ≠ .Error ∧
         (parse {} (36 :: (bytes "18446744073709551615" ++ [13, 10]))).1.2 ≠ .Completed ∧
         ((parse {} (36 :: (bytes "18446744073709551615" ++ [13, 10]))).1.2 = .length_error ↔
           string_max_size < digits_value (bytes "18446744073709551615") % 2 ^ 64) ∧
         ((parse {} (36 :: (bytes "18446744073709551615" ++ [13, 10]))).1.2 = .Incompleted →
           (parse {} (36 :: (bytes "18446744073709551615" ++ [13, 10]))).1.1 = (bytes "18446744073709551615").length + 3 ∧
           (parse {} (36 :: (bytes "18446744073709551615" ++ [13, 10]))).2._bulk_size = digits_value (bytes "18446744073709551615") % 2 ^ 64))) :=
  ⟨⟨by decide, by decide⟩,
    header_length_wrapped (bytes "18446744073709551615") (by decide) (by decide)⟩
theorem bad_text_byte (b : Nat)
    (hb : (b < 32 ∧ b ≠ 13) ∨ b = 127 ∨ (128 ≤ b ∧ b ≤ 255)) :
    b ≠ 13 ∧ (is_char (char_to_int b) && !is_control (char_to_int b)) = false := by
  refine ⟨by omega, ?_⟩
  by_cases h : b < 128
  · simp only [char_to_int, h, if_true, is_char, is_control, Bool.and_eq_false_imp,
      Bool.and_eq_true, decide_eq_true_eq, Bool.not_eq_false', Bool.or_eq_true]
    omega
  · simp only [char_to_int, h, if_false, is_char, is_control, Bool.and_eq_false_imp,
      Bool.and_eq_true, decide_eq_true_eq, Bool.not_eq_false', Bool.or_eq_true]
    omega

/-- A simple-string or error frame whose text has a byte outside the class, or
whose CR is not followed by LF, read by a new parser. -/
theorem chunk_text_rejected (intro : Nat) (hi : intro = 43 ∨ intro = 45)
    (pre : List Nat) (hpre : ∀ c ∈ pre, 32 ≤ c ∧ c ≤ 126) (b : Nat) (rest : List Nat) :
    ((b < 32 ∧ b ≠ 13) ∨ b = 127 ∨ (128 ≤ b ∧ b ≤ 255) →
      (chunk {} (intro :: (pre ++ b :: rest))).1 = (pre.length + 2, .Error)) ∧
    (b ≠ 10 → (chunk {} (intro :: (pre ++ 13 :: b :: rest))).1 = (pre.length + 3, .Error)) := by
  constructor
  · intro hb
    obtain ⟨h13, hcls⟩ := bad_text_byte b hb
    rw [chunk_eq_run, chunk_entry_idle {} rfl]
    rcases hi with rfl | rfl
    · have h1 : chunk_switch .Start 43 (pre ++ b :: rest) {}
          = .go .String (pre ++ b :: rest) {} := rfl
      rw [run_go h1 (by simp), run_text _ (Or.inl rfl) pre hpre]
      have h2 : chunk_switch .String b rest { ({} : parser) with _buf := [] ++ pre }
          = .ret rest (clear_states { ({} : parser) with _buf := [] ++ pre }) := by
        simp [chunk_switch, h13, hcls, fail]
      rw [run_ret h2]
      simp only [List.length_cons, List.length_append]
      refine Prod.ext ?_ rfl
      simp only
      omega
    · have h1 : chunk_switch .Start 45 (pre ++ b :: rest) {}
          = .go .ErrorString (pre ++ b :: rest) {} := rfl
      rw [run_go h1 (by simp), run_text _ (Or.inr rfl) pre hpre]
      have h2 : chunk_switch .ErrorString b rest { ({} : parser) with _buf := [] ++ pre }
          = .ret rest (clear_states { ({} : parser) with _buf := [] ++ pre }) := by
        simp [chunk_switch, h13, hcls, fail]
      rw [run_ret h2]
      simp only [List.length_cons, List.length_append]
      refine Prod.ext ?_ rfl
      simp only
      omega
  · intro hb
    rw [chunk_eq_run, chunk_entry_idle {} rfl]
    rcases hi with rfl | rfl
    · have h1 : chunk_switch .Start 43 (pre ++ 13 :: b :: rest) {}
          = .go .String (pre ++ 13 :: b :: rest) {} := rfl
      rw [run_go h1 (by simp), run_text _ (Or.inl rfl) pre hpre]
      have h2 : chunk_switch .String 13 (b :: rest) { ({} : parser) with _buf := [] ++ pre }
          = .go .StringLF (b :: rest) { ({} : parser) with _buf := [] ++ pre } := by
        simp [chunk_switch]
      have h3 : chunk_switch .StringLF b rest { ({} : parser) with _buf := [] ++ pre }
          = .ret rest (clear_states { ({} : parser) with _buf := [] ++ pre }) := by
        simp [chunk_switch, hb, fail]
      rw [run_go h2 (by simp), run_ret h3]
      simp only [List.length_cons, List.length_append]
      refine Prod.ext ?_ rfl
      simp only
      omega
    · have h1 : chunk_switch .Start 45 (pre ++ 13 :: b :: rest) {}
          = .go .ErrorString (pre ++ 13 :: b :: rest) {} := rfl
      rw [run_go h1 (by simp), run_text _ (Or.inr rfl) pre hpre]
      have h2 : chunk_switch .ErrorString 13 (b :: rest)
            { ({} : parser) with _buf := [] ++ pre }
          = .go .ErrorLF (b :: rest) { ({} : parser) with _buf := [] ++ pre } := by
        simp [chunk_switch]
      have h3 : chunk_switch .ErrorLF b rest { ({} : parser) with _buf := [] ++ pre }
          = .ret rest (clear_states { ({} : parser) with _buf := [] ++ pre }) := by
        simp [chunk_switch, hb, fail]
      rw [run_go h2 (by simp), run_ret h3]
      simp only [List.length_cons, List.length_append]
      refine Prod.ext ?_ rfl
      simp only
      omega

/-- A simple-string or error frame whose text is printable, read by a new
parser. -/
theorem chunk_text_accepted (intro : Nat) (hi : intro = 43 ∨ intro = 45)
    (t : List Nat) (ht : ∀ c ∈ t, 32 ≤ c ∧ c ≤ 126) :
    chunk {} (intro :: (t ++ [13, 10]))
      = ((t.length + 3, .Completed), { _buf := t, _value := value.string 0 t }) := by
  rcases hi with rfl | rfl
  · have h := chunk_of_after_value {} (43 :: (t ++ [13, 10])) []
      { _buf := t, _value := value.string 0 t } rfl rfl
      (by simpa using run_status .Start (Or.inl rfl) t ht [] {})
    rw [List.append_nil] at h
    rw [h]
    simp
  · have h := chunk_of_after_value {} (45 :: (t ++ [13, 10])) []
      { _buf := t, _value := value.string 0 t } rfl rfl
      (by simpa using run_error .Start (Or.inl rfl) t ht [] {})
    rw [List.append_nil] at h
    rw [h]
    simp

/-- C15: the byte class of simple strings.  For a `+` or `-` frame: when every
byte of the text is in 0x20..0x7E, `parse` returns `Completed`, consumes the
text and three more bytes and gives the text unchanged; when the text has,
before its CR, a control byte other than CR (a bare LF included), the byte 0x7F
or a byte with the high bit set, `parse` returns `Error` at that byte; when the
CR is followed by a byte other than LF, `parse` returns `Error` at that byte. -/
theorem simple_string_byte_class (intro : Nat) (hi : intro = 43 ∨ intro = 45) :
    (∀ t : List Nat, (∀ c ∈ t, 32 ≤ c ∧ c ≤ 126) →
      (parse {} (intro :: (t ++ [13, 10]))).1 = (t.length + 3, .Completed) ∧
      (parse {} (intro :: (t ++ [13, 10]))).2.result.to_string = t ∧
      (parse {} (intro :: (t ++ [13, 10]))).2.result.is_string = true) ∧
    (∀ (pre : List Nat) (b : Nat) (rest : List Nat), (∀ c ∈ pre, 32 ≤ c ∧ c ≤ 126) →
      ((b < 32 ∧ b ≠ 13) ∨ b = 127 ∨ (128 ≤ b ∧ b ≤ 255)) →
      (parse {} (intro :: (pre ++ b :: rest))).1 = (pre.length + 2, .Error)) ∧
    (∀ (pre : List Nat) (b : Nat) (rest : List Nat), (∀ c ∈ pre, 32 ≤ c ∧ c ≤ 126) →
      b ≠ 10 →
      (parse {} (intro :: (pre ++ 13 :: b :: rest))).1 = (pre.length + 3, .Error)) := by
  refine ⟨fun t ht => ?_, fun pre b rest hpre hb => (chunk_text_rejected intro hi pre hpre b rest).1 hb,
    fun pre b rest hpre hb => (chunk_text_rejected intro hi pre hpre b rest).2 hb⟩
  unfold parse
  rw [chunk_text_accepted intro hi t ht]
  exact ⟨rfl, rfl, rfl⟩

theorem simple_string_byte_class_witness :
    (((45 : Nat) = 43 ∨ (45 : Nat) = 45) ∧ (∀ c ∈ bytes "ERR x", 32 ≤ c ∧ c ≤ 126) ∧
      (∀ c ∈ bytes "ER", 32 ≤ c ∧ c ≤ 126) ∧
      (((10 : Nat) < 32 ∧ (10 : Nat) ≠ 13) ∨ (10 : Nat) = 127 ∨ (128 ≤ (10 : Nat) ∧ (10 : Nat) ≤ 255)) ∧
      (65 : Nat) ≠ 10) ∧
    (((parse {} (45 :: (bytes "ERR x" ++ [13, 10]))).1 = ((bytes "ERR x").length + 3, .Completed) ∧
      (parse {} (45 :: (bytes "ERR x" ++ [13, 10]))).2.result.to_string = bytes "ERR x" ∧
      (parse {} (45 :: (bytes "ERR x" ++ [13, 10]))).2.result.is_string = true) ∧
    (parse {} (45 :: (bytes "ER" ++ 10 :: bytes "R\r\n"))).1 = ((bytes "ER").length + 2, .Error) ∧
    (parse {} (45 :: (bytes "ER" ++ 13 :: 65 :: bytes "\r\n"))).1
      = ((bytes "ER").length + 3, .Error)) :=
  ⟨⟨Or.inr rfl, by decide, by decide, by decide, by decide⟩,
    (simple_string_byte_class 45 (Or.inr rfl)).1 (bytes "ERR x") (by decide),
    (simple_string_byte_class 45 (Or.inr rfl)).2.1 (bytes "ER") 10 (bytes "R\r\n") (by decide)
      (by decide),
    (simple_string_byte_class 45 (Or.inr rfl)).2.2 (bytes "ER") 65 (bytes "\r\n") (by decide)
      (by decide)⟩
theorem chunk_switch_go_start_lf {state : state_t} {c : Nat} {rest : List Nat} {p : parser}
    {r : List Nat} {p1 : parser} (h : chunk_switch state c rest p = .go .Start r p1) :
    c = 10 := by
  cases state <;> simp only [chunk_switch, fail] at h
  all_goals (try split_ifs at h)
  all_goals (try (simp only [step_t.go.injEq, reduceCtorEq, false_and] at h))
  all_goals (try assumption)

theorem chunk_switch_suffix {state : state_t} {c : Nat} {rest : List Nat} {p : parser}
    {state1 : state_t} {r : List Nat} {p1 : parser}
    (h : chunk_switch state c rest p = .go state1 r p1) : ∃ s, c :: rest = s ++ r := by
  cases state
  case BulkSizeLF =>
    simp only [chunk_switch, fail] at h
    split_ifs at h
    all_goals (try (simp only [step_t.go.injEq, reduceCtorEq, false_and] at h))
    all_goals (try (exact ⟨[c], by rw [← h.2.1]; rfl⟩))
    all_goals
      (obtain ⟨_, rfl, _⟩ := h
       exact ⟨c :: rest.take _, by rw [List.cons_append, List.take_append_drop]⟩)
  case Bulk =>
    rw [chunk_switch_Bulk] at h
    split_ifs at h
    · simp only [step_t.go.injEq] at h
      obtain ⟨_, rfl, _⟩ := h
      exact ⟨(c :: rest).take _, (List.take_append_drop _ _).symm⟩
    · simp only [step_t.go.injEq] at h
      obtain ⟨_, rfl, _⟩ := h
      exact ⟨c :: rest, by simp⟩
  all_goals simp only [chunk_switch, fail] at h
  all_goals (try split_ifs at h)
  all_goals (try (simp only [step_t.go.injEq, reduceCtorEq, false_and] at h))
  all_goals (try (exact ⟨[c], by rw [← h.2.1]; rfl⟩))

/-- A run on unread bytes that ends in `Completed` ends right after a LF. -/
theorem run_completed_lf (state : state_t) (c : Nat) (rest : List Nat) (p : parser)
    (hc : (run state (c :: rest) p).2.1 = .Completed) :
    ∃ pre, c :: rest = pre ++ 10 :: (run state (c :: rest) p).1 := by
  obtain ⟨n, hn⟩ : ∃ n, loop_measure state (c :: rest) = n := ⟨_, rfl⟩
  induction n using Nat.strong_induction_on generalizing state c rest p with
  | _ n ih =>
    rw [run_cons] at hc ⊢
    cases hs : chunk_switch state c rest p with
    | ret rest1 p1 => rw [hs] at hc; simp at hc
    | throw rest1 p1 => rw [hs] at hc; simp at hc
    | go state1 rest1 p1 =>
      have hm := chunk_switch_measure hs
      obtain ⟨s, hsuf⟩ := chunk_switch_suffix hs
      rw [hs] at hc
      simp only at hc ⊢
      by_cases h1 : state1 = .Start
      · subst h1
        have hr := chunk_switch_go_start hs
        have hlf := chunk_switch_go_start_lf hs
        subst hr hlf
        simp only [if_true] at hc ⊢
        split_ifs at hc ⊢ with h2
        · rw [chunk_exit_rest]
          exact ⟨[], rfl⟩
        · cases rest1 with
          | nil =>
            rw [run_nil] at hc
            simp [chunk_exit, h2] at hc
          | cons c1 r1 =>
            obtain ⟨pre, hpre⟩ := ih _ (hn ▸ hm) _ _ _ _ hc rfl
            exact ⟨10 :: pre, by rw [List.cons_append, ← hpre]⟩
      · simp only [h1, if_false] at hc ⊢
        cases rest1 with
        | nil =>
          rw [run_nil] at hc
          simp [chunk_exit, h1] at hc
        | cons c1 r1 =>
          obtain ⟨pre, hpre⟩ := ih _ (hn ▸ hm) _ _ _ _ hc rfl
          exact ⟨s ++ pre, by rw [hsuf, List.append_assoc, ← hpre]⟩
theorem chunk_completed_at_lf (p : parser) (input : List Nat) (hne : input ≠ [])
    (hc : (chunk p input).1.2 = .Completed) :
    1 ≤ (chunk p input).1.1 ∧ (chunk p input).1.1 ≤ input.length ∧
      input[(chunk p input).1.1 - 1]? = some 10 := by
  obtain ⟨c, rest, rfl⟩ := List.exists_cons_of_ne_nil hne
  have h1 := chunk_completed_progress p c rest hc
  have h2 := chunk_consumed_le p (c :: rest)
  refine ⟨h1, h2, ?_⟩
  rw [chunk_eq_run] at hc ⊢
  obtain ⟨pre, hpre⟩ := run_completed_lf _ c rest _ hc
  simp only
  generalize (run (chunk_entry p).1 (c :: rest) (chunk_entry p).2).1 = r at hpre
  rw [hpre]
  have hlen : (pre ++ 10 :: r).length - r.length - 1 = pre.length := by
    simp only [List.length_append, List.length_cons]
    omega
  rw [hlen, List.getElem?_append_right (le_refl _)]
  simp

/-- The bytes up to the count of a `Completed` call give the same call, and
fewer bytes give `Incompleted`. -/
theorem chunk_completed_take (p : parser) (input : List Nat) (hne : input ≠ [])
    (hc : (chunk p input).1.2 = .Completed) :
    chunk p (input.take (chunk p input).1.1) = chunk p input ∧
      ∀ k, 1 ≤ k → k < (chunk p input).1.1 → (chunk p (input.take k)).1.2 = .Incompleted := by
  obtain ⟨h1, h2, _⟩ := chunk_completed_at_lf p input hne hc
  have key : ∀ k, 1 ≤ k → k ≤ input.length → input.drop k ≠ [] →
      chunk p input =
        if (chunk p (input.take k)).1.2 = .Incompleted then
          ((k + (chunk (chunk p (input.take k)).2 (input.drop k)).1.1,
            (chunk (chunk p (input.take k)).2 (input.drop k)).1.2),
            (chunk (chunk p (input.take k)).2 (input.drop k)).2)
        else chunk p (input.take k) := by
    intro k hk1 hk2 hd
    obtain ⟨c1, b, hb⟩ := List.exists_cons_of_ne_nil hd
    have ha : input.take k ≠ [] := by
      intro h
      have := congrArg List.length h
      simp only [List.length_take, List.length_nil] at this
      omega
    have e := chunk_append p (input.take k) c1 b ha
    rw [← hb, List.take_append_drop] at e
    rw [e]
    simp only [List.length_take, Nat.min_eq_left hk2]
  constructor
  · by_cases hd : input.drop (chunk p input).1.1 = []
    · have : input.length ≤ (chunk p input).1.1 := List.drop_eq_nil_iff.mp hd
      rw [List.take_of_length_le this]
    · have e := key _ h1 h2 hd
      split_ifs at e with hi
      · exfalso
        obtain ⟨c1, b, hb⟩ := List.exists_cons_of_ne_nil hd
        have e2 := congrArg (fun x => x.1.2) e
        have e1 := congrArg (fun x => x.1.1) e
        simp only at e1 e2
        rw [hc, hb] at e2
        have hp := chunk_completed_progress _ c1 b e2.symm
        rw [hb] at e1
        omega
      · exact e.symm
  · intro k hk1 hk2
    have hd : input.drop k ≠ [] := by
      intro h
      have := List.drop_eq_nil_iff.mp h
      omega
    have e := key k hk1 (by omega) hd
    by_contra hi
    rw [if_neg hi] at e
    have hle := chunk_consumed_le p (input.take k)
    rw [← e] at hle
    simp only [List.length_take] at hle
    omega

/-- C16 (as amended): on a non-empty input, `Completed` means that a value was
decoded.  For every parser and every non-empty input, when `parse` returns
`(n, Completed)` then `n ≥ 1`, the input byte at index `n - 1` is LF, and that
LF ends the value: the first `n` bytes alone give the same call (same count,
same parser, same `result()`), and every non-empty shorter prefix gives
`Incompleted`. -/
theorem parse_completed_ends_value (p : parser) (input : List Nat) (hne : input ≠ [])
    (hc : (parse p input).1.2 = .Completed) :
    1 ≤ (parse p input).1.1 ∧ (parse p input).1.1 ≤ input.length ∧
      input[(parse p input).1.1 - 1]? = some 10 ∧
      parse p (input.take (parse p input).1.1) = parse p input ∧
      ∀ k, 1 ≤ k → k < (parse p input).1.1 → (parse p (input.take k)).1.2 = .Incompleted :=
  ⟨(chunk_completed_at_lf p input hne hc).1, (chunk_completed_at_lf p input hne hc).2.1,
    (chunk_completed_at_lf p input hne hc).2.2, (chunk_completed_take p input hne hc).1,
    (chunk_completed_take p input hne hc).2⟩

theorem parse_completed_ends_value_witness :
    (bytes "+PONG\r\n+OK" ≠ [] ∧ (parse {} (bytes "+PONG\r\n+OK")).1.2 = .Completed) ∧
    (1 ≤ (parse {} (bytes "+PONG\r\n+OK")).1.1 ∧
      (parse {} (bytes "+PONG\r\n+OK")).1.1 ≤ (bytes "+PONG\r\n+OK").length ∧
      (bytes "+PONG\r\n+OK")[(parse {} (bytes "+PONG\r\n+OK")).1.1 - 1]? = some 10 ∧
      parse {} ((bytes "+PONG\r\n+OK").take (parse {} (bytes "+PONG\r\n+OK")).1.1)
        = parse {} (bytes "+PONG\r\n+OK") ∧
      ∀ k, 1 ≤ k → k < (parse {} (bytes "+PONG\r\n+OK")).1.1 →
        (parse {} ((bytes "+PONG\r\n+OK").take k)).1.2 = .Incompleted) :=
  ⟨⟨by decide, by decide⟩,
    parse_completed_ends_value {} (bytes "+PONG\r\n+OK") (by decide) (by decide)⟩

/-- C16 (counterexample): a new parser on the empty input returns
`(0, Completed)` and `result()` is the nil value it was built with; a parser
that has completed `+PONG` (with count 7) does the same on the empty input and
`result()` is still `PONG`. -/
theorem parse_empty_completed :
    (parse {} []).1 = (0, .Completed) ∧
      (parse {} []).2.result = value.null 0 ∧
      (parse {} (bytes "+PONG\r\n")).1 = (7, .Completed) ∧
      (parse (parse {} (bytes "+PONG\r\n")).2 []).1 = (0, .Completed) ∧
      (parse (parse {} (bytes "+PONG\r\n")).2 []).2.result = value.string 0 (bytes "PONG") := by
  refine ⟨rfl, rfl, rfl, rfl, rfl⟩
/-- C19 (the code at the failing input): after `*2` and the element `:1`, the
byte `x` gives `Error`; the resume stack is empty but `_array_sizes` still holds
the counter 1 and `_array_values` the partial array `[1]`, and the later input
`:5` completes the array `[1, 5]`.  The same happens when the error is inside a
simple string. -/
theorem error_keeps_partial_array :
    (parse {} (bytes "*2\r\n:1\r\nx")).1 = (9, .Error) ∧
      (parse {} (bytes "*2\r\n:1\r\nx")).2._states = [] ∧
      (parse {} (bytes "*2\r\n:1\r\nx")).2._array_sizes = [1] ∧
      (parse {} (bytes "*2\r\n:1\r\nx")).2._array_values = [value.array 0 [value.int 0 1]] ∧
      (parse (parse {} (bytes "*2\r\n:1\r\nx")).2 (bytes ":5\r\n")).1 = (4, .Completed) ∧
      (parse (parse {} (bytes "*2\r\n:1\r\nx")).2 (bytes ":5\r\n")).2.result
        = value.array 0 [value.int 0 1, value.int 0 5] ∧
      (parse {} (bytes "*2\r\n:1\r\n+a\nb")).1 = (11, .Error) ∧
      (parse {} (bytes "*2\r\n:1\r\n+a\nb")).2._array_sizes = [1] ∧
      (parse (parse {} (bytes "*2\r\n:1\r\n+a\nb")).2 (bytes ":5\r\n")).2.result
        = value.array 0 [value.int 0 1, value.int 0 5] := by
  refine ⟨rfl, rfl, rfl, rfl, rfl, rfl, rfl, rfl, rfl⟩

theorem push_back_top_length (vals : List value) (v : value) :
    (push_back_top vals v).length = vals.length := by
  unfold push_back_top
  split <;> simp

theorem push_back_top_is_array (vals : List value) (v : value)
    (h : ∀ x ∈ vals, x.is_array = true) : ∀ x ∈ push_back_top vals v, x.is_array = true := by
  unfold push_back_top
  split
  · intro x hx
    rcases List.mem_cons.mp hx with rfl | hx
    · rfl
    · exact h x (by simp [hx])
  · exact h

theorem pop_loop_ok (sizes : List Int) (vals : List value) (v : value)
    (hl : sizes.length = vals.length) (hn : ∀ n ∈ sizes, 1 ≤ n)
    (ha : ∀ x ∈ vals, x.is_array = true) :
    (pop_loop sizes vals v).1.length = (pop_loop sizes vals v).2.1.length ∧
      (∀ n ∈ (pop_loop sizes vals v).1, 1 ≤ n) ∧
      (∀ x ∈ (pop_loop sizes vals v).2.1, x.is_array = true) := by
  induction sizes generalizing vals v with
  | nil => exact ⟨hl, hn, ha⟩
  | cons n S ih =>
    cases vals with
    | nil => simp at hl
    | cons top V =>
      have hS : ∀ m ∈ S, 1 ≤ m := fun m hm => hn m (by simp [hm])
      have hV : ∀ x ∈ V, x.is_array = true := fun x hx => ha x (by simp [hx])
      have hlen : S.length = V.length := by simpa using hl
      simp only [pop_loop]
      split_ifs with h0 hne
      · exact ih _ _ (by rw [push_back_top_length]; exact hlen) hS
          (push_back_top_is_array _ _ hV)
      · exact ih _ _ hlen hS hV
      · refine ⟨by simpa using hl, ?_, ha⟩
        intro m hm
        rcases List.mem_cons.mp hm with rfl | hm
        · have := hn n (by simp)
          omega
        · exact hS m hm

theorem array_complete_ok (p : parser) (h : p.arrays_ok) : (array_complete p).arrays_ok := by
  unfold array_complete
  split_ifs with hne
  · obtain ⟨h1, h2, h3⟩ := h
    exact pop_loop_ok _ _ _ (by rw [push_back_top_length]; exact h1) h2
      (push_back_top_is_array _ _ h3)
  · exact h

theorem chunk_switch_ok {state : state_t} {c : Nat} {rest : List Nat} {p : parser}
    (hp : p.arrays_ok) :
    (∀ r p1, chunk_switch state c rest p = .ret r p1 → p1.arrays_ok) ∧
    (∀ state1 r p1, chunk_switch state c rest p = .go state1 r p1 → p1.arrays_ok) := by
  constructor
  · intro r p1 h
    cases state <;> simp only [chunk_switch, fail, clear_states] at h
    all_goals (try split_ifs at h)
    all_goals (try (simp only [step_t.ret.injEq, reduceCtorEq] at h))
    all_goals (try (obtain ⟨_, rfl⟩ := h))
    all_goals (try exact hp)
  · intro state1 r p1 h
    cases state
    case ArraySizeLF =>
      simp only [chunk_switch, fail] at h
      split_ifs at h with h1 h2 h3 h4
      all_goals (try (simp only [step_t.go.injEq, reduceCtorEq] at h))
      all_goals (try (obtain ⟨_, _, rfl⟩ := h))
      all_goals (try exact hp)
      obtain ⟨a1, a2, a3⟩ := hp
      refine ⟨by simp [a1], ?_, ?_⟩
      · intro n hn
        rcases List.mem_cons.mp hn with rfl | hn
        · omega
        · exact a2 n hn
      · intro x hx
        rcases List.mem_cons.mp hx with rfl | hx
        · rfl
        · exact a3 x hx
    all_goals simp only [chunk_switch, fail] at h
    all_goals (try split_ifs at h)
    all_goals (try (simp only [step_t.go.injEq, reduceCtorEq] at h))
    all_goals (try (obtain ⟨_, _, rfl⟩ := h))
    all_goals (try exact hp)
theorem chunk_switch_throw_ok {state : state_t} {c : Nat} {rest : List Nat} {p : parser}
    {r : List Nat} {p1 : parser} (hp : p.arrays_ok) (hs : p._states = [])
    (h : chunk_switch state c rest p = .throw r p1) : p1.arrays_ok ∧ p1._states = [] := by
  cases state <;> simp only [chunk_switch, fail] at h
  all_goals (try split_ifs at h)
  all_goals (try (simp only [step_t.throw.injEq, reduceCtorEq] at h))
  all_goals (try (obtain ⟨_, rfl⟩ := h))
  all_goals (try exact ⟨hp, hs⟩)

theorem chunk_exit_inv (state : state_t) (rest : List Nat) (p : parser)
    (hp : p.arrays_ok) (hs : p._states = []) :
    (chunk_exit state rest p).2.2.arrays_ok ∧
      ((chunk_exit state rest p).2.1 = .Completed →
        (chunk_exit state rest p).2.2._states = [] ∧
        (chunk_exit state rest p).2.2._array_sizes = []) ∧
      ((chunk_exit state rest p).2.1 = .Incompleted →
        (chunk_exit state rest p).2.2._states.length = 1) ∧
      ((chunk_exit state rest p).2.1 = .Error → (chunk_exit state rest p).2.2._states = []) ∧
      ((chunk_exit state rest p).2.1 = .length_error →
        (chunk_exit state rest p).2.2._states = []) := by
  unfold chunk_exit
  split_ifs with h
  · exact ⟨hp, fun _ => ⟨hs, h.1⟩, fun h => by simp at h, fun h => by simp at h,
      fun h => by simp at h⟩
  · exact ⟨hp, fun h => by simp at h, fun _ => by simp [hs], fun h => by simp at h,
      fun h => by simp at h⟩

/-- What a run of the loop of `chunk` keeps and establishes, from a parser with
an empty resume stack and well-formed array stacks. -/
theorem run_inv (state : state_t) (rest : List Nat) (p : parser)
    (hp : p.arrays_ok) (hs : p._states = []) :
    (run state rest p).2.2.arrays_ok ∧
      ((run state rest p).2.1 = .Completed →
        (run state rest p).2.2._states = [] ∧ (run state rest p).2.2._array_sizes = []) ∧
      ((run state rest p).2.1 = .Incompleted → (run state rest p).2.2._states.length = 1) ∧
      ((run state rest p).2.1 = .Error → (run state rest p).2.2._states = []) ∧
      ((run state rest p).2.1 = .length_error → (run state rest p).2.2._states = []) := by
  obtain ⟨n, hn⟩ : ∃ n, loop_measure state rest = n := ⟨_, rfl⟩
  induction n using Nat.strong_induction_on generalizing state rest p with
  | _ n ih =>
    cases rest with
    | nil => rw [run_nil]; exact chunk_exit_inv _ _ _ hp hs
    | cons c rest =>
      rw [run_cons]
      cases hsw : chunk_switch state c rest p with
      | ret rest1 p1 =>
        exact ⟨(chunk_switch_ok hp).1 _ _ hsw, fun h => by simp at h, fun h => by simp at h,
          fun _ => (chunk_switch_states hs).1 _ _ hsw, fun h => by simp at h⟩
      | throw rest1 p1 =>
        exact ⟨(chunk_switch_throw_ok hp hs hsw).1, fun h => by simp at h,
          fun h => by simp at h, fun h => by simp at h,
          fun _ => (chunk_switch_throw_ok hp hs hsw).2⟩
      | go state1 rest1 p1 =>
        have hm := chunk_switch_measure hsw
        have hp1 := (chunk_switch_ok hp).2 _ _ _ hsw
        have hs1 := (chunk_switch_states hs).2 _ _ _ hsw
        simp only
        split_ifs with h1 h2
        · exact chunk_exit_inv _ _ _ (array_complete_ok p1 hp1)
            (by rw [array_complete_states]; exact hs1)
        · exact ih _ (hn ▸ hm) _ _ _ (array_complete_ok p1 hp1)
            (by rw [array_complete_states]; exact hs1) rfl
        · exact ih _ (hn ▸ hm) _ _ _ hp1 hs1 rfl

theorem chunk_entry_ok (p : parser) (h : p.arrays_ok) : (chunk_entry p).2.arrays_ok := by
  unfold chunk_entry
  split <;> exact h

/-- One call of `chunk` keeps the invariant of the parser, leaves all three
stacks empty when it returns `Completed` and exactly one state to resume in when
it returns `Incompleted`. -/
theorem chunk_wf (p : parser) (input : List Nat) (hp : p.wf) :
    (chunk p input).2.wf ∧
      ((chunk p input).1.2 = .Completed →
        (chunk p input).2._states = [] ∧ (chunk p input).2._array_sizes = [] ∧
        (chunk p input).2._array_values = []) ∧
      ((chunk p input).1.2 = .Incompleted → (chunk p input).2._states.length = 1) := by
  obtain ⟨w1, w2, w3, w4⟩ := hp
  have hi := run_inv (chunk_entry p).1 input (chunk_entry p).2
    (chunk_entry_ok p ⟨w2, w3, w4⟩) (chunk_entry_states p w1)
  rw [chunk_eq_run]
  simp only
  obtain ⟨⟨a1, a2, a3⟩, hc, hinc, herr, hthrow⟩ := hi
  refine ⟨⟨?_, a1, a2, a3⟩, ?_, hinc⟩
  · cases hr : (run (chunk_entry p).1 input (chunk_entry p).2).2.1 with
    | Completed => rw [(hc hr).1]; simp
    | Incompleted => rw [hinc hr]
    | Error => rw [herr hr]; simp
    | length_error => rw [hthrow hr]; simp
  · intro h
    refine ⟨(hc h).1, (hc h).2, ?_⟩
    have := a1
    rw [(hc h).2] at this
    exact List.length_eq_zero.mp this.symm

theorem parse_all_wf (inputs : List (List Nat)) (p : parser) (hp : p.wf) :
    (parse_all p inputs).2.wf := by
  induction inputs generalizing p with
  | nil => exact hp
  | cons d ds ih => exact ih _ (chunk_wf p d hp).1

theorem new_parser_wf : ({} : parser).wf := by
  refine ⟨by simp, rfl, by simp, by simp⟩

/-- C20: the invariant of the parser.  After every call in every sequence of
calls of `parse` on a new parser (here: the call on `data` after the calls on
`inputs`, empty inputs included), the resume stack has depth 0 or 1,
`_array_sizes` and `_array_values` have the same depth, and every counter in
`_array_sizes` is at least 1; after a call that returns `Completed` the resume
stack and both array stacks are empty, and after a call that returns
`Incompleted` the resume stack has depth exactly 1. -/
theorem parse_invariant (inputs : List (List Nat)) (data : List Nat) :
    (parse (parse_all {} inputs).2 data).2._states.length ≤ 1 ∧
      (parse (parse_all {} inputs).2 data).2._array_sizes.length
        = (parse (parse_all {} inputs).2 data).2._array_values.length ∧
      (∀ n ∈ (parse (parse_all {} inputs).2 data).2._array_sizes, 1 ≤ n) ∧
      ((parse (parse_all {} inputs).2 data).1.2 = .Completed →
        (parse (parse_all {} inputs).2 data).2._states = [] ∧
        (parse (parse_all {} inputs).2 data).2._array_sizes = [] ∧
        (parse (parse_all {} inputs).2 data).2._array_values = []) ∧
      ((parse (parse_all {} inputs).2 data).1.2 = .Incompleted →
        (parse (parse_all {} inputs).2 data).2._states.length = 1) := by
  obtain ⟨⟨w1, w2, w3, _⟩, hc, hi⟩ :=
    chunk_wf (parse_all {} inputs).2 data (parse_all_wf inputs {} new_parser_wf)
  exact ⟨w1, w2, w3, hc, hi⟩
/-- C21: re-subscribing does not replace a handler.  For every client whose
subscription map holds the handler `h1` under the channel `c`, `command` (and
`subscribe`) with the subscribe key `c` and another handler `h2` leaves the map
as it is, with `h1` under `c`, and leaves the pending queue as it is; a later
push `["message", c, p]` calls `h1` with `p` and makes no other call. -/
theorem resubscribe_keeps_handler (cl : client) (args : List (List Nat)) (h1 h2 : Nat)
    (c : List Nat) (p : value) (e e0 e1 : Int) (hc : c ≠ [])
    (hold : map_find cl._subscribe_handler c = some h1) :
    (cl.command args h2 c)._subscribe_handler = cl._subscribe_handler ∧
      (cl.command args h2 c)._handler = cl._handler ∧
      map_find (cl.command args h2 c)._subscribe_handler c = some h1 ∧
      (cl.subscribe c h2)._subscribe_handler = cl._subscribe_handler ∧
      (cl.subscribe c h2)._handler = cl._handler ∧
      consume_message (cl.command args h2 c)
          (value.array e [value.string e0 (bytes "message"), value.string e1 c, p])
        = .ok { cl.command args h2 c with
                trace := (cl.command args h2 c).trace ++ [event.call h1 p] } ∧
      consume_message (cl.subscribe c h2)
          (value.array e [value.string e0 (bytes "message"), value.string e1 c, p])
        = .ok { cl.subscribe c h2 with
                trace := (cl.subscribe c h2).trace ++ [event.call h1 p] } := by
  have hm : ∀ a : List (List Nat), (cl.command a h2 c)._subscribe_handler
      = cl._subscribe_handler := by
    intro a
    unfold client.command
    split_ifs
    · simp [map_insert, hold]
    · rfl
  have hq : ∀ a : List (List Nat), (cl.command a h2 c)._handler = cl._handler := by
    intro a
    unfold client.command
    split_ifs <;> rfl
  have hpush : ∀ a : List (List Nat), consume_message (cl.command a h2 c)
      (value.array e [value.string e0 (bytes "message"), value.string e1 c, p])
        = .ok { cl.command a h2 c with
                trace := (cl.command a h2 c).trace ++ [event.call h1 p] } := by
    intro a
    have hf : map_find (cl.command a h2 c)._subscribe_handler c = some h1 := by
      rw [hm a]; exact hold
    simp [consume_message, value.get_string, hf]
  exact ⟨hm args, hq args, by rw [hm args]; exact hold, hm _, hq _, hpush args, hpush _⟩

theorem resubscribe_keeps_handler_witness :
    (bytes "ch" ≠ [] ∧
      map_find ({ _handler := [4], _subscribe_handler := [(bytes "a", 2), (bytes "ch", 1)] }
        : client)._subscribe_handler (bytes "ch") = some 1) ∧
    ((({ _handler := [4], _subscribe_handler := [(bytes "a", 2), (bytes "ch", 1)] } : client).command
          [bytes "SUBSCRIBE", bytes "ch"] 9 (bytes "ch"))._subscribe_handler
        = ({ _handler := [4], _subscribe_handler := [(bytes "a", 2), (bytes "ch", 1)] }
          : client)._subscribe_handler ∧
      (({ _handler := [4], _subscribe_handler := [(bytes "a", 2), (bytes "ch", 1)] } : client).command
          [bytes "SUBSCRIBE", bytes "ch"] 9 (bytes "ch"))._handler
        = ({ _handler := [4], _subscribe_handler := [(bytes "a", 2), (bytes "ch", 1)] }
          : client)._handler ∧
      map_find (({ _handler := [4], _subscribe_handler := [(bytes "a", 2), (bytes "ch", 1)] }
          : client).command [bytes "SUBSCRIBE", bytes "ch"] 9 (bytes "ch"))._subscribe_handler
        (bytes "ch") = some 1 ∧
      (({ _handler := [4], _subscribe_handler := [(bytes "a", 2), (bytes "ch", 1)] }
          : client).subscribe (bytes "ch") 9)._subscribe_handler
        = ({ _handler := [4], _subscribe_handler := [(bytes "a", 2), (bytes "ch", 1)] }
          : client)._subscribe_handler ∧
      (({ _handler := [4], _subscribe_handler := [(bytes "a", 2), (bytes "ch", 1)] }
          : client).subscribe (bytes "ch") 9)._handler
        = ({ _handler := [4], _subscribe_handler := [(bytes "a", 2), (bytes "ch", 1)] }
          : client)._handler ∧
      consume_message
          (({ _handler := [4], _subscribe_handler := [(bytes "a", 2), (bytes "ch", 1)] }
            : client).command [bytes "SUBSCRIBE", bytes "ch"] 9 (bytes "ch"))
          (value.array 0 [value.string 0 (bytes "message"), value.string 0 (bytes "ch"),
            value.string 0 (bytes "hello")])
        = .ok { (({ _handler := [4], _subscribe_handler := [(bytes "a", 2), (bytes "ch", 1)] }
                  : client).command [bytes "SUBSCRIBE", bytes "ch"] 9 (bytes "ch")) with
                trace := (({ _handler := [4], _subscribe_handler := [(bytes "a", 2), (bytes "ch", 1)] }
                  : client).command [bytes "SUBSCRIBE", bytes "ch"] 9 (bytes "ch")).trace
                  ++ [event.call 1 (value.string 0 (bytes "hello"))] } ∧
      consume_message
          (({ _handler := [4], _subscribe_handler := [(bytes "a", 2), (bytes "ch", 1)] }
            : client).subscribe (bytes "ch") 9)
          (value.array 0 [value.string 0 (bytes "message"), value.string 0 (bytes "ch"),
            value.string 0 (bytes "hello")])
        = .ok { (({ _handler := [4], _subscribe_handler := [(bytes "a", 2), (bytes "ch", 1)] }
                  : client).subscribe (bytes "ch") 9) with
                trace := (({ _handler := [4], _subscribe_handler := [(bytes "a", 2), (bytes "ch", 1)] }
                  : client).subscribe (bytes "ch") 9).trace
                  ++ [event.call 1 (value.string 0 (bytes "hello"))] }) :=
  ⟨⟨by decide, rfl⟩,
    resubscribe_keeps_handler _ [bytes "SUBSCRIBE", bytes "ch"] 1 9 (bytes "ch")
      (value.string 0 (bytes "hello")) 0 0 0 (by decide) rfl⟩
/-- The bulk header and the array header with a negative length other than -1,
alone in the input of a new parser: the bulk header is not rejected, the length
converted to `size_t` is above the `max_size()` of the string and the call is
left by `std::length_error` with an empty resume stack; the array header gives
`Error`. -/
theorem chunk_negative_length (n : Int) (h1 : -(2 : Int) ^ 63 ≤ n) (h2 : n < -1) :
    chunk {} (36 :: (decimal_int n ++ [13, 10]))
        = (((decimal_int n).length + 3, .length_error),
            { _buf := [], _bulk_size := (2 ^ 64 + n).toNat }) ∧
      (chunk {} (42 :: (decimal_int n ++ [13, 10]))).1
        = ((decimal_int n).length + 3, .Error) := by
  have hl := to_long_decimal_int n h1 (by omega)
  have hz : to_size_t n = (2 ^ 64 + n).toNat := by
    unfold to_size_t
    norm_num at h1 ⊢
    omega
  have hm : to_size_t (-1) = 2 ^ 64 - 1 := by decide
  constructor
  · rw [chunk_bulk_header _ (decimal_int_digits_or n) (decimal_int_ne_nil n), hl, hz, hm]
    have a1 : ¬ ((2 ^ 64 + n).toNat = 2 ^ 64 - 1) := by norm_num at h1 ⊢; omega
    have a2 : ¬ ((2 ^ 64 + n).toNat = 0) := by norm_num at h1 ⊢; omega
    have a3 : string_max_size < (2 ^ 64 + n).toNat := by
      have := string_max_size_lt
      norm_num at h1 this ⊢
      omega
    rw [if_neg a1, if_neg a2, if_pos a3]
  · rw [chunk_array_header _ (decimal_int_digits_or n) (decimal_int_ne_nil n), hl]
    have a1 : ¬ (n = -1) := by omega
    have a2 : ¬ (n = 0) := by omega
    have a3 : n < 0 := by omega
    rw [if_neg a1, if_neg a2, if_pos a3]

set_option maxRecDepth 10000 in
/-- C22 (the code at the failing input): the bulk header `$-2` is not rejected.
On a new parser the call of `parse` on it does not return `Error`: the length is
stored as 18446744073709551614 and the call is left by `std::length_error` from
`_buf.reserve`, with the resume stack empty, so the next call starts a new
value and reads the following frame `+OK` as usual; the same happens for
`$-9223372036854775808`.  The array header `*-2` returns `Error` at its LF. -/
theorem negative_bulk_length_not_rejected :
    (parse {} (bytes "$-2\r\n")).1.2 = .length_error ∧
      (parse {} (bytes "$-2\r\n")).2._bulk_size = 18446744073709551614 ∧
      (parse {} (bytes "$-2\r\n")).2._states = [] ∧
      (parse {} (bytes "$-2\r\n+OK\r\n")).1.2 = .length_error ∧
      (parse (parse {} (bytes "$-2\r\n")).2 (bytes "+OK\r\n")).1 = (5, .Completed) ∧
      (parse (parse {} (bytes "$-2\r\n")).2 (bytes "+OK\r\n")).2.result
        = value.string 0 (bytes "OK") ∧
      (parse {} (bytes "$-9223372036854775808\r\n")).1.2 = .length_error ∧
      (parse {} (bytes "*-2\r\n")).1 = (5, .Error) := by
  refine ⟨rfl, rfl, rfl, rfl, rfl, rfl, rfl, rfl⟩

end redis
